import Mathlib

set_option maxHeartbeats 1000000

/-!
Shallow embedding of the model_explorer core (tree.py, loader.py, utils.py).
Python strings are represented as `List Char`.  The tree-builder pipeline uses
the total ASCII reading of `str.isdigit`/`str.lower` (`convertTok`); the
Unicode-faithful, fallible semantics of `natural_sort_key` — `str.isdigit`
accepts non-decimal digit characters that `int()` rejects (`ValueError`), and
non-ASCII decimal digits yield numeric tokens at text positions so that
Python's list comparison can raise `TypeError` — is modelled separately by
`pyConvertTok`/`pyNaturalSortKey`/`pyKeyCmp`, proved equal to the ASCII
reading on ASCII input.  Python `list.sort`, a stable ascending sort, is
modelled by stable insertion sort, which agrees with any stable sort under a
total transitive comparison.  Python dicts preserve insertion order; they are
modelled by association lists with append-at-end insertion.  CPython floats
in utils.py are modelled as exact binary64 values (significand × 2^exponent
pairs, round-to-nearest ties-to-even at 53 bits, unbounded exponent — the
overflow CPython raises for inputs beyond about 2^1024 is outside scope);
`"%.1f"` formatting rounds the exact binary value to one decimal, ties to
even, as CPython does.
-/

/-- Characters of a Python string. -/
abbrev PyStr := List Char

/-- Coerce a Lean string literal to the character-list representation. -/
def strOf (s : String) : PyStr := s.data

/-- `text.startswith(p)` on character lists (first argument is the pattern). -/
def startsWithB : PyStr → PyStr → Bool
  | [], _ => true
  | _ :: _, [] => false
  | c :: cs, d :: ds => c == d && startsWithB cs ds

/-- Python `name.split('.')` (the only separator tree.py uses). -/
def splitDot : PyStr → List PyStr
  | [] => [[]]
  | c :: cs =>
    match splitDot cs with
    | [] => []
    | p :: rest => if c = '.' then [] :: p :: rest else (c :: p) :: rest

/-- A maximal run of non-digit characters (possibly empty). -/
def isTextRun (p : PyStr) : Bool := p.all (fun c => !c.isDigit)

/-- A maximal nonempty run of digit characters. -/
def isDigitRun (p : PyStr) : Bool := !p.isEmpty && p.all (·.isDigit)

/-- Python `re.split('([0-9]+)', text)`: the string split at maximal digit
runs, keeping the (captured) digit runs; the result alternates non-digit and
digit parts, beginning and ending with a possibly empty non-digit part. -/
def reSplit : PyStr → List PyStr
  | [] => [[]]
  | c :: cs =>
    match reSplit cs with
    | [] => []
    | p :: rest =>
      if c.isDigit then
        match p, rest with
        | [], d :: rest2 => [] :: (c :: d) :: rest2
        | _, _ => [] :: [c] :: p :: rest
      else (c :: p) :: rest

/-- A sort-key token: either a lowercased text run or a parsed number. -/
inductive Tok where
  | txt (s : PyStr)
  | num (n : Nat)
deriving DecidableEq, Repr

/-- Is the token numeric? -/
def Tok.isNum : Tok → Bool
  | .txt _ => false
  | .num _ => true

/-- Python `int(p)` on a string of decimal digits. -/
def digitsToNat (p : PyStr) : Nat := p.foldl (fun n c => n * 10 + (c.toNat - 48)) 0

/-- Python `p.lower()` (ASCII). -/
def lowerStr (p : PyStr) : PyStr := p.map Char.toLower

/-- `convert` inside `natural_sort_key`:
`int(text) if text.isdigit() else text.lower()`, at its ASCII reading (on
ASCII input `str.isdigit` is `[0-9]+` and `int` never fails).  The
Unicode-faithful fallible version is `pyConvertTok` below, proved equal to
this one on ASCII strings. -/
def convertTok (p : PyStr) : Tok :=
  if !p.isEmpty && p.all (·.isDigit) then .num (digitsToNat p) else .txt (lowerStr p)

/-- `natural_sort_key` from tree.py: split into digit/non-digit runs and
convert each run to a comparable token. -/
def natural_sort_key (s : PyStr) : List Tok := (reSplit s).map convertTok

/-- Three-way comparison of characters by code point (Python `str` order). -/
def charCmp (a b : Char) : Ordering :=
  if a.toNat < b.toNat then .lt else if b.toNat < a.toNat then .gt else .eq

/-- Lexicographic comparison of strings by code point. -/
def strCmp : PyStr → PyStr → Ordering
  | [], [] => .eq
  | [], _ :: _ => .lt
  | _ :: _, [] => .gt
  | a :: xs, b :: ys =>
    match charCmp a b with
    | .eq => strCmp xs ys
    | o => o

/-- Comparison of sort-key tokens.  On the keys `natural_sort_key` produces,
tokens at equal positions always have equal kinds, so the cross-kind cases are
never exercised; they are fixed (num before txt) to make the order total. -/
def tokCmp : Tok → Tok → Ordering
  | .num a, .num b => if a < b then .lt else if b < a then .gt else .eq
  | .txt a, .txt b => strCmp a b
  | .num _, .txt _ => .lt
  | .txt _, .num _ => .gt

/-- Lexicographic comparison of whole sort keys (Python list comparison). -/
def keyCmp : List Tok → List Tok → Ordering
  | [], [] => .eq
  | [], _ :: _ => .lt
  | _ :: _, [] => .gt
  | a :: xs, b :: ys =>
    match tokCmp a b with
    | .eq => keyCmp xs ys
    | o => o

/-- Non-strict order on sort keys. -/
def keyLe (a b : List Tok) : Bool :=
  match keyCmp a b with
  | .gt => false
  | _ => true

/-- The exceptions the CPython `natural_sort_key` pipeline can raise. -/
inductive PyError where
  | valueError
  | typeError
deriving DecidableEq, Repr

/-- Python `str.isdigit` per character (Numeric_Type Digit or Decimal).
Modelled from the Unicode character data for every code point appearing in
this development: the ASCII digits, the superscripts `¹` `²` `³` (digits but
not decimal, so `int()` rejects them), and the Arabic-Indic decimal digits
U+0660–U+0669.  It agrees with CPython on every ASCII character and on the
characters listed; other non-ASCII digit characters behave like these two
non-ASCII groups and are not modelled individually. -/
def pyIsDigitChar (c : Char) : Bool :=
  c.isDigit || c.toNat = 0xB2 || c.toNat = 0xB3 || c.toNat = 0xB9 ||
    (0x660 ≤ c.toNat && c.toNat ≤ 0x669)

/-- The decimal value `int()` assigns a character, `none` when the character
is not a decimal digit (same Unicode scope as `pyIsDigitChar`). -/
def pyDecimalVal (c : Char) : Option Nat :=
  if c.isDigit then some (c.toNat - 48)
  else if 0x660 ≤ c.toNat && c.toNat ≤ 0x669 then some (c.toNat - 0x660)
  else none

/-- Python `int(p)` on a digit run: fails (ValueError) when any character has
no decimal value, e.g. a superscript digit. -/
def pyIntOfRun (p : PyStr) : Option Nat :=
  p.foldl (fun acc c =>
    match acc, pyDecimalVal c with
    | some n, some d => some (n * 10 + d)
    | _, _ => none) (some 0)

/-- Unicode-faithful `convert`: `int(text) if text.isdigit() else
text.lower()`, where `isdigit` accepts characters `int()` rejects, raising
`ValueError` (case folding stays ASCII — it cannot affect totality or token
kinds, which is what the fallible model is for). -/
def pyConvertTok (p : PyStr) : Except PyError Tok :=
  if !p.isEmpty && p.all pyIsDigitChar then
    match pyIntOfRun p with
    | some n => .ok (.num n)
    | none => .error .valueError
  else .ok (.txt (lowerStr p))

/-- Unicode-faithful `natural_sort_key`: the first failing run raises. -/
def pyNaturalSortKey (s : PyStr) : Except PyError (List Tok) :=
  (reSplit s).mapM pyConvertTok

/-- Python comparison of two key tokens: comparing an `int` against a `str`
raises `TypeError`. -/
def pyTokCmp : Tok → Tok → Except PyError Ordering
  | .num a, .num b => .ok (if a < b then .lt else if b < a then .gt else .eq)
  | .txt a, .txt b => .ok (strCmp a b)
  | .num _, .txt _ => .error .typeError
  | .txt _, .num _ => .error .typeError

/-- Python list comparison of two keys: elementwise until a difference, the
shorter prefix first; raises when it compares tokens of different kinds. -/
def pyKeyCmp : List Tok → List Tok → Except PyError Ordering
  | [], [] => .ok .eq
  | [], _ :: _ => .ok .lt
  | _ :: _, [] => .ok .gt
  | a :: xs, b :: ys =>
    match pyTokCmp a b with
    | .error e => .error e
    | .ok .eq => pyKeyCmp xs ys
    | .ok o => .ok o

/-- Insert into a sorted list, after any element ordered at-or-before `x`
(the placement a stable ascending sort gives). -/
def insertLe {α : Type} (le : α → α → Bool) (x : α) : List α → List α
  | [] => [x]
  | y :: ys => if le y x then y :: insertLe le x ys else x :: y :: ys

/-- Stable ascending sort modelling Python `list.sort(key=...)`. -/
def sortLe {α : Type} (le : α → α → Bool) (l : List α) : List α :=
  l.foldl (fun acc x => insertLe le x acc) []

/-- Boolean check that consecutive elements are ordered. -/
def sortedB {α : Type} (le : α → α → Bool) : List α → Bool
  | [] => true
  | [_] => true
  | a :: b :: t => le a b && sortedB le (b :: t)

/-- `TensorInfo` dataclass from tree.py. -/
structure TensorInfo where
  name : PyStr
  dtype : PyStr
  shape : List Nat
  size_bytes : Nat
  num_elements : Nat
deriving DecidableEq, Repr

/-- `MetadataInfo` dataclass from tree.py. -/
structure MetadataInfo where
  name : PyStr
  value : PyStr
  value_type : PyStr
deriving DecidableEq, Repr

/-- `TreeNode` dataclass from tree.py: simultaneous optional fields, exactly
as in the source (group-ness, tensor-ness, metadata-ness are separate
optionals, not an enforced sum type). -/
inductive TreeNode where
  | mk (name : PyStr) (children : Option (List TreeNode)) (expanded : Bool)
      (tensor_count : Nat) (total_size : Nat)
      (tensor_info : Option TensorInfo) (metadata_info : Option MetadataInfo)
deriving Repr

def TreeNode.name : TreeNode → PyStr
  | .mk nm _ _ _ _ _ _ => nm

def TreeNode.children : TreeNode → Option (List TreeNode)
  | .mk _ ch _ _ _ _ _ => ch

def TreeNode.expanded : TreeNode → Bool
  | .mk _ _ e _ _ _ _ => e

def TreeNode.tensor_count : TreeNode → Nat
  | .mk _ _ _ tc _ _ _ => tc

def TreeNode.total_size : TreeNode → Nat
  | .mk _ _ _ _ ts _ _ => ts

def TreeNode.tensor_info : TreeNode → Option TensorInfo
  | .mk _ _ _ _ _ ti _ => ti

def TreeNode.metadata_info : TreeNode → Option MetadataInfo
  | .mk _ _ _ _ _ _ mi => mi

/-- `TreeNode.is_group`: `children is not None`. -/
def TreeNode.is_group (n : TreeNode) : Prop := n.children.isSome = true

/-- `TreeNode.is_tensor`: `tensor_info is not None`. -/
def TreeNode.is_tensor (n : TreeNode) : Prop := n.tensor_info.isSome = true

/-- `TreeNode.is_metadata`: `metadata_info is not None`. -/
def TreeNode.is_metadata (n : TreeNode) : Prop := n.metadata_info.isSome = true

/-- Sort order used by every `.sort(key=lambda x: natural_sort_key(x.name))`
on tree nodes. -/
def nodeLe (a b : TreeNode) : Bool :=
  keyLe (natural_sort_key a.name) (natural_sort_key b.name)

/-- Sort order used on raw tensors inside a prefix bucket. -/
def tensLe (a b : TensorInfo) : Bool :=
  keyLe (natural_sort_key a.name) (natural_sort_key b.name)

def sortNodes (l : List TreeNode) : List TreeNode := sortLe nodeLe l

def sortTensors (l : List TensorInfo) : List TensorInfo := sortLe tensLe l

/-- A tensor leaf node as constructed by the builder. -/
def mkLeaf (t : TensorInfo) : TreeNode := .mk t.name none false 0 0 (some t) none

/-- A metadata leaf node as constructed by `build_tree_mixed`. -/
def mkMetaLeaf (m : MetadataInfo) : TreeNode := .mk m.name none false 0 0 none (some m)

/-- Total `size_bytes` of a list of tensors. -/
def sumBytes (ts : List TensorInfo) : Nat := (ts.map TensorInfo.size_bytes).sum

/-- A group node: count and size aggregate over the full bucket `gts`. -/
def mkGroup (name : PyStr) (children : List TreeNode) (expanded : Bool)
    (gts : List TensorInfo) : TreeNode :=
  .mk name (some children) expanded gts.length (sumBytes gts) none none

/-- Append `t` to the bucket of key `k`, creating the bucket at the end when
absent (Python dict insertion-order semantics). -/
def bucketAdd {α : Type} : List (PyStr × List α) → PyStr → α → List (PyStr × List α)
  | [], k, t => [(k, [t])]
  | (k2, ts) :: rest, k, t =>
    if k2 = k then (k2, ts ++ [t]) :: rest else (k2, ts) :: bucketAdd rest k t

/-- The remaining path of a tensor inside `build_subtree`: strip
`pfx + "."` when the name starts with it, else keep the whole name. -/
def remainingName (pfx : PyStr) (t : TensorInfo) : PyStr :=
  if startsWithB (pfx ++ ['.']) t.name then t.name.drop (pfx.length + 1) else t.name

/-- One iteration of the partition loop of `build_subtree`: a single-segment
remainder joins the direct tensors, the rest are bucketed by next segment. -/
def subStep (pfx : PyStr) (acc : List (PyStr × List TensorInfo) × List TensorInfo)
    (t : TensorInfo) : List (PyStr × List TensorInfo) × List TensorInfo :=
  let parts := splitDot (remainingName pfx t)
  if parts.length = 1 then (acc.1, acc.2 ++ [t])
  else (bucketAdd acc.1 (parts.headD []) t, acc.2)

/-- The partition loop of `build_subtree`. -/
def subPartition (pfx : PyStr) (ts : List TensorInfo) :
    List (PyStr × List TensorInfo) × List TensorInfo :=
  ts.foldl (subStep pfx) ([], [])

/-- The per-bucket loop of `build_subtree`, parameterized by the recursive
call `f` (a fueled stage of `buildSubtreeF`); `none` propagates fuel
exhaustion. -/
def buildGroupsWith (f : List TensorInfo → PyStr → Option (List TreeNode)) :
    List (PyStr × List TensorInfo) → PyStr → Option (List TreeNode)
  | [], _ => some []
  | (g, gts) :: rest, pfx =>
    match f gts (pfx ++ '.' :: g) with
    | none => none
    | some children =>
      match buildGroupsWith f rest pfx with
      | none => none
      | some gnodes => some (mkGroup g children false gts :: gnodes)

/-- Fueled `TreeBuilder.build_subtree`.  The Python recursion terminates only
under the invariant `build_tree` establishes (every name in the bucket starts
with `pfx + "."`); fuel makes the function total, and the fuel-sufficiency
theorem shows `build_tree` always supplies enough. -/
def buildSubtreeF (fuel : Nat) : List TensorInfo → PyStr → Option (List TreeNode) :=
  Nat.rec (motive := fun _ => List TensorInfo → PyStr → Option (List TreeNode))
    (fun _ _ => none)
    (fun _ ih ts pfx =>
      let pr := subPartition pfx ts
      match buildGroupsWith ih pr.1 pfx with
      | none => none
      | some gnodes => some (sortNodes (pr.2.map mkLeaf ++ gnodes)))
    fuel

/-- The dict key Python uses for tensors whose name has no dot. -/
def rootKey : PyStr := strOf "_root"

/-- One iteration of the `root_map` loop of `build_tree`: bucket by first
segment when the name has more than one, else under `"_root"`. -/
def rootStep (acc : List (PyStr × List TensorInfo)) (t : TensorInfo) :
    List (PyStr × List TensorInfo) :=
  let parts := splitDot t.name
  if parts.length > 1 then bucketAdd acc (parts.headD []) t
  else bucketAdd acc rootKey t

/-- The `root_map` loop of `build_tree`. -/
def rootPartition (ts : List TensorInfo) : List (PyStr × List TensorInfo) :=
  ts.foldl rootStep []

/-- Fuel that the fuel-sufficiency theorem proves adequate for every bucket. -/
def treeFuel (ts : List TensorInfo) : Nat :=
  (ts.map (fun t => t.name.length)).sum + 1

/-- The per-bucket emission loop of `build_tree`: the `"_root"` bucket turns
into top-level leaves, every other bucket into one expanded group whose
children come from `build_subtree` on the natural-sorted bucket. -/
def emitEntry (tensors : List TensorInfo) (p : PyStr × List TensorInfo) :
    List TreeNode :=
  if p.1 = rootKey then p.2.map mkLeaf
  else [mkGroup p.1
    ((buildSubtreeF (treeFuel tensors) (sortTensors p.2) p.1).getD []) true p.2]

/-- `TreeBuilder.build_tree`: partition at the root, emit every bucket, then
natural-sort the whole top level. -/
def build_tree (tensors : List TensorInfo) : List TreeNode :=
  sortNodes ((rootPartition tensors).flatMap (emitEntry tensors))

/-- The synthetic metadata group of `build_tree_mixed`: one metadata leaf per
entry, children natural-sorted by name, zero tensor aggregates, collapsed. -/
def metaGroupNode (metadata : List MetadataInfo) : TreeNode :=
  TreeNode.mk (strOf "🔧 Metadata") (some (sortNodes (metadata.map mkMetaLeaf)))
    false 0 0 none none

/-- `TreeBuilder.build_tree_mixed`: the metadata group (only when metadata is
nonempty) pinned first, then the tensor tree. -/
def build_tree_mixed (tensors : List TensorInfo) (metadata : List MetadataInfo) :
    List TreeNode :=
  (match metadata with
   | [] => []
   | _ :: _ => [metaGroupNode metadata])
  ++ build_tree tensors

mutual

/-- A node together with all nodes of its subtree. -/
def allNodesN : TreeNode → List TreeNode
  | .mk nm och e tc tsz ti mi => .mk nm och e tc tsz ti mi :: allNodesO och

/-- All nodes under an optional child list. -/
def allNodesO : Option (List TreeNode) → List TreeNode
  | none => []
  | some cs => allNodesL cs

/-- All nodes of a forest. -/
def allNodesL : List TreeNode → List TreeNode
  | [] => []
  | c :: cs => allNodesN c ++ allNodesL cs

end

/-- The `TensorInfo` records of the tensor-leaf nodes of a subtree. -/
def leafInfosN (n : TreeNode) : List TensorInfo :=
  (allNodesN n).filterMap TreeNode.tensor_info

/-- The `TensorInfo` records of the tensor-leaf nodes of a forest. -/
def leafInfosL (l : List TreeNode) : List TensorInfo :=
  (allNodesL l).filterMap TreeNode.tensor_info

/-- Python `pat in s` (substring containment). -/
def containsSub (s pat : PyStr) : Bool :=
  if startsWithB pat s then true
  else
    match s with
    | [] => false
    | _ :: rest => containsSub rest pat

/-- The dtype-substring byte-width heuristic of `load_safetensors_file`. -/
def bytesPerElem (dtype : PyStr) : Nat :=
  if containsSub dtype (strOf "16") then 2
  else if containsSub dtype (strOf "8") then 1
  else if containsSub dtype (strOf "64") then 8
  else 4

/-- `num_elements`: running product of the shape dimensions. -/
def numElements (shape : List Nat) : Nat := shape.foldl (· * ·) 1

/-- One tensor record as `load_safetensors_file` constructs it (the decoder
reports no byte size, so the dtype heuristic supplies it). -/
def decodeTensor (name dtype : PyStr) (shape : List Nat) : TensorInfo :=
  { name := name, dtype := dtype, shape := shape,
    size_bytes := numElements shape * bytesPerElem dtype,
    num_elements := numElements shape }

/-- The dict-based first-wins dedup loop of `ModelLoader.load`. -/
def dedupTensors (ts : List TensorInfo) : List TensorInfo :=
  ts.foldl (fun acc t => if acc.any (fun u => u.name == t.name) then acc else acc ++ [t]) []

/-- The decoded records one input file contributes. -/
structure FileRecords where
  tensors : List TensorInfo
  metadata : List MetadataInfo

/-- Loader state after `ModelLoader.load`. -/
structure LoaderState where
  tensors : List TensorInfo
  metadata : List MetadataInfo
  total_parameters : Nat

/-- `ModelLoader.load`: concatenate per-file records in file order, dedup
tensors first-wins by name, keep metadata as-is, and total the elements of
the deduplicated tensors. -/
def loadMerge (files : List FileRecords) : LoaderState :=
  let allT := (files.map FileRecords.tensors).flatten
  let allM := (files.map FileRecords.metadata).flatten
  let uniq := dedupTensors allT
  { tensors := uniq, metadata := allM,
    total_parameters := (uniq.map TensorInfo.num_elements).sum }

/-- Round `a / b` (for `b > 0`) to the nearest integer, ties to even: the
rounding `"%.1f"` applies to the exactly represented quotient. -/
def rndHalfEven (a b : Nat) : Nat :=
  let q := a / b
  let r := a % b
  if b < 2 * r then q + 1
  else if 2 * r < b then q
  else if q % 2 = 0 then q else q + 1

/-- Number of iterations needed to halve `n` down to zero, supplied as fuel
so the recursion is structural. -/
def bitLenAux : Nat → Nat → Nat
  | 0, _ => 0
  | fuel + 1, n => if n = 0 then 0 else 1 + bitLenAux fuel (n / 2)

/-- Bit length of a natural: `2^(bitLen n - 1) ≤ n < 2^(bitLen n)` for
positive `n`. -/
def bitLen (n : Nat) : Nat := bitLenAux n n

/-- A nonnegative binary64 value, exactly: significand times `2^exponent`.
The exponent is unbounded (the `OverflowError` CPython raises converting
integers beyond about `2^1024` is outside the model's scope); rounding is to
53 significand bits, to nearest, ties to even, exactly as IEEE 754 / CPython
doubles. -/
abbrev Dbl := Nat × Int

/-- `float(n)`: exact for `n < 2^53`, otherwise rounded to 53 bits
(nearest, ties to even). -/
def floatOfNat (n : Nat) : Dbl :=
  if bitLen n ≤ 53 then (n, 0)
  else
    let s := bitLen n - 53
    (rndHalfEven n (2 ^ s), (s : Int))

/-- Is `a / b ≥ 2^e`, for positive naturals `a`, `b`. -/
def fracGePow (a b : Nat) (e : Int) : Bool :=
  if 0 ≤ e then b * 2 ^ e.toNat ≤ a else b ≤ a * 2 ^ (-e).toNat

/-- Round the exact rational `a / b` (`b > 0`) to binary64: scale into
`[2^52, 2^53)` using the bit lengths (corrected by one comparison) and round
the scaled quotient half-even. -/
def roundFrac (a b : Nat) : Dbl :=
  if a = 0 then (0, 0)
  else
    let e0 : Int := (bitLen a : Int) - (bitLen b : Int)
    let l : Int := if fracGePow a b e0 then e0 else e0 - 1
    let s : Int := l - 52
    if 0 ≤ s then (rndHalfEven a (b * 2 ^ s.toNat), s)
    else (rndHalfEven (a * 2 ^ (-s).toNat) b, s)

/-- Correctly rounded binary64 division of a double by a positive integer
(`n / 1000.0` etc. in `format_parameters`). -/
def divD (d : Dbl) (k : Nat) : Dbl :=
  if 0 ≤ d.2 then roundFrac (d.1 * 2 ^ d.2.toNat) k
  else roundFrac d.1 (k * 2 ^ (-d.2).toNat)

/-- `size < 1024.0` comparisons of the format_size loop (exact). -/
def dLtN (d : Dbl) (k : Nat) : Bool :=
  if 0 ≤ d.2 then d.1 * 2 ^ d.2.toNat < k else d.1 < k * 2 ^ (-d.2).toNat

/-- Python `int(size)` on a nonnegative double: truncation. -/
def truncD (d : Dbl) : Nat :=
  if 0 ≤ d.2 then d.1 * 2 ^ d.2.toNat else d.1 / 2 ^ (-d.2).toNat

/-- The integer `round_half_even(10 * value)` behind `f"{value:.1f}"`:
CPython rounds the exact binary value to one decimal, ties to even. -/
def fmtD (d : Dbl) : Nat :=
  if 0 ≤ d.2 then 10 * d.1 * 2 ^ d.2.toNat
  else rndHalfEven (10 * d.1) (2 ^ (-d.2).toNat)

/-- `f"{value:.1f}"` of a nonnegative double. -/
def pyF1 (d : Dbl) : String :=
  toString (fmtD d / 10) ++ "." ++ toString (fmtD d % 10)

/-- `size /= 1024.0`: dividing a binary64 value by `2^10` only shifts the
exponent, so it is exact. -/
def div1024 (d : Dbl) : Dbl := (d.1, d.2 - 10)

/-- `format_size` from utils.py with the 1024-division loop unrolled, on the
binary64 model: convert to float, divide by 1024 while the value is at least
1024 and a larger unit remains, print `B` as `int(size)` and larger units
with one decimal. -/
def format_size (size_bytes : Nat) : String :=
  let s0 := floatOfNat size_bytes
  if dLtN s0 1024 then toString (truncD s0) ++ " B"
  else
    let s1 := div1024 s0
    if dLtN s1 1024 then pyF1 s1 ++ " KB"
    else
      let s2 := div1024 s1
      if dLtN s2 1024 then pyF1 s2 ++ " MB"
      else pyF1 (div1024 s2) ++ " GB"

/-- `format_parameters` from utils.py on the binary64 model: the range tests
compare the integer, the scaling is correctly rounded double division. -/
def format_parameters (params : Nat) : String :=
  if params < 1000 then toString params
  else if params < 1000000 then pyF1 (divD (floatOfNat params) 1000) ++ "K"
  else if params < 1000000000 then pyF1 (divD (floatOfNat params) 1000000) ++ "M"
  else pyF1 (divD (floatOfNat params) 1000000000) ++ "B"

/-- The one-decimal digit pair `format_parameters` prints for `n` scaled by
`d`: `round_half_even` of ten times the correctly rounded double `n / d`. -/
def oneDecScaled (n d : Nat) : Nat := fmtD (divD (floatOfNat n) d)

/-- The name `format_node_label` in app.py displays for a node: groups and
metadata show `node.name`, tensor leaves show the last dot-segment of the
tensor name. -/
def displayName (n : TreeNode) : PyStr :=
  match n.tensor_info with
  | some t => (splitDot t.name).getLastD []
  | none => n.name

/-- Order by natural-sort of displayed name (what claim C2 asserts). -/
def displayLe (a b : TreeNode) : Bool :=
  keyLe (natural_sort_key (displayName a)) (natural_sort_key (displayName b))

/-! ### Lemmas about the stable insertion sort -/

theorem insertLe_perm {α : Type} (le : α → α → Bool) (x : α) :
    ∀ l : List α, (insertLe le x l).Perm (x :: l) := by
  intro l
  induction l with
  | nil => exact List.Perm.refl _
  | cons y ys ih =>
    simp only [insertLe]
    by_cases h : le y x = true
    · rw [if_pos h]
      exact (ih.cons y).trans (List.Perm.swap x y ys)
    · rw [if_neg h]

theorem sortLe_perm_aux {α : Type} (le : α → α → Bool) :
    ∀ (l acc : List α),
      (List.foldl (fun acc x => insertLe le x acc) acc l).Perm (acc ++ l) := by
  intro l
  induction l with
  | nil => intro acc; simp
  | cons x xs ih =>
    intro acc
    have h1 := ih (insertLe le x acc)
    have h2 : (insertLe le x acc ++ xs).Perm (acc ++ x :: xs) := by
      have h3 : (insertLe le x acc ++ xs).Perm ((x :: acc) ++ xs) :=
        List.Perm.append_right xs (insertLe_perm le x acc)
      exact h3.trans List.perm_middle.symm
    exact (h1.trans h2)

theorem sortLe_perm {α : Type} (le : α → α → Bool) (l : List α) :
    (sortLe le l).Perm l := by
  have := sortLe_perm_aux le l []
  simpa [sortLe] using this

theorem insertLe_sorted {α : Type} (le : α → α → Bool)
    (total : ∀ a b, (le a b || le b a) = true) (x : α) :
    ∀ l, sortedB le l = true → sortedB le (insertLe le x l) = true := by
  intro l
  induction l with
  | nil => intro _; rfl
  | cons y ys ih =>
    intro h
    have hys : sortedB le ys = true := by
      cases ys with
      | nil => rfl
      | cons z t =>
        have : (le y z && sortedB le (z :: t)) = true := h
        exact (Bool.and_eq_true _ _ |>.mp this).2
    simp only [insertLe]
    by_cases hyx : le y x = true
    · rw [if_pos hyx]
      have hins := ih hys
      cases ys with
      | nil =>
        simp only [insertLe]
        show (le y x && sortedB le [x]) = true
        rw [hyx]; rfl
      | cons z t =>
        have hyz : le y z = true := by
          have : (le y z && sortedB le (z :: t)) = true := h
          exact (Bool.and_eq_true _ _ |>.mp this).1
        simp only [insertLe] at hins ⊢
        by_cases hzx : le z x = true
        · rw [if_pos hzx] at hins ⊢
          show (le y z && sortedB le (z :: insertLe le x t)) = true
          rw [hyz, hins]; rfl
        · rw [if_neg hzx] at hins ⊢
          show (le y x && sortedB le (x :: z :: t)) = true
          rw [hyx, hins]; rfl
    · rw [if_neg hyx]
      have hxy : le x y = true := by
        have ht := total x y
        cases hxy2 : le x y with
        | true => rfl
        | false =>
          rw [hxy2] at ht
          simp at ht
          exact absurd ht hyx
      show (le x y && sortedB le (y :: ys)) = true
      rw [hxy, h]; rfl

theorem sortLe_sorted_aux {α : Type} (le : α → α → Bool)
    (total : ∀ a b, (le a b || le b a) = true) :
    ∀ (l acc : List α), sortedB le acc = true →
      sortedB le (List.foldl (fun acc x => insertLe le x acc) acc l) = true := by
  intro l
  induction l with
  | nil => intro acc h; exact h
  | cons x xs ih =>
    intro acc h
    exact ih (insertLe le x acc) (insertLe_sorted le total x acc h)

theorem sortLe_sorted {α : Type} (le : α → α → Bool)
    (total : ∀ a b, (le a b || le b a) = true) (l : List α) :
    sortedB le (sortLe le l) = true :=
  sortLe_sorted_aux le total l [] rfl

/-! ### Totality of the natural-sort order -/

theorem charCmp_swap (a b : Char) : charCmp b a = (charCmp a b).swap := by
  by_cases h1 : a.toNat < b.toNat
  · simp [charCmp, h1, show ¬b.toNat < a.toNat by omega, Ordering.swap]
  · by_cases h2 : b.toNat < a.toNat
    · simp [charCmp, h1, h2, Ordering.swap]
    · simp [charCmp, h1, h2, Ordering.swap]

theorem strCmp_swap : ∀ xs ys : PyStr, strCmp ys xs = (strCmp xs ys).swap := by
  intro xs
  induction xs with
  | nil =>
    intro ys
    cases ys with
    | nil => rfl
    | cons y ys => rfl
  | cons x xs ih =>
    intro ys
    cases ys with
    | nil => rfl
    | cons y ys =>
      simp only [strCmp]
      rw [charCmp_swap x y]
      cases charCmp x y with
      | lt => rfl
      | gt => rfl
      | eq => exact ih ys

theorem tokCmp_swap : ∀ a b : Tok, tokCmp b a = (tokCmp a b).swap := by
  intro a b
  cases a with
  | num m =>
    cases b with
    | num n =>
      by_cases h1 : m < n
      · simp [tokCmp, h1, show ¬n < m by omega, Ordering.swap]
      · by_cases h2 : n < m
        · simp [tokCmp, h1, h2, Ordering.swap]
        · simp [tokCmp, h1, h2, Ordering.swap]
    | txt s => rfl
  | txt s =>
    cases b with
    | num n => rfl
    | txt t => exact strCmp_swap s t

theorem keyCmp_swap : ∀ xs ys : List Tok, keyCmp ys xs = (keyCmp xs ys).swap := by
  intro xs
  induction xs with
  | nil =>
    intro ys
    cases ys with
    | nil => rfl
    | cons y ys => rfl
  | cons x xs ih =>
    intro ys
    cases ys with
    | nil => rfl
    | cons y ys =>
      simp only [keyCmp]
      rw [tokCmp_swap x y]
      cases tokCmp x y with
      | lt => rfl
      | gt => rfl
      | eq => exact ih ys

theorem keyLe_total (a b : List Tok) : (keyLe a b || keyLe b a) = true := by
  simp only [keyLe]
  rw [keyCmp_swap b a]
  cases keyCmp b a with
  | lt => rfl
  | eq => rfl
  | gt => rfl

theorem nodeLe_total (a b : TreeNode) : (nodeLe a b || nodeLe b a) = true :=
  keyLe_total _ _

theorem tensLe_total (a b : TensorInfo) : (tensLe a b || tensLe b a) = true :=
  keyLe_total _ _

/-! ### Alternation of digit and text runs in the sort key -/

/-- The shape `re.split('([0-9]+)', _)` guarantees: a text run first, then
alternating digit runs and text runs. -/
def altRuns : List PyStr → Bool
  | [] => false
  | [t] => isTextRun t
  | t :: d :: rest => isTextRun t && isDigitRun d && altRuns rest

theorem reSplit_alt : ∀ s : PyStr, altRuns (reSplit s) = true := by
  intro s
  induction s with
  | nil => rfl
  | cons c cs ih =>
    cases hs : reSplit cs with
    | nil => rw [hs] at ih; exact absurd ih (by simp [altRuns])
    | cons p rest =>
      rw [hs] at ih
      by_cases hc : c.isDigit
      · cases p with
        | nil =>
          cases rest with
          | nil =>
            simp only [reSplit, hs, hc, if_pos]
            simp only [altRuns] at ih ⊢
            simp [isTextRun, isDigitRun, hc, ih]
          | cons d rest2 =>
            simp only [reSplit, hs, hc, if_pos]
            simp only [altRuns, Bool.and_eq_true] at ih ⊢
            refine ⟨⟨by simp [isTextRun], ?_⟩, ih.2⟩
            have hd : isDigitRun d = true := ih.1.2
            simp only [isDigitRun, Bool.and_eq_true] at hd ⊢
            exact ⟨by simp, by simp [hc, hd.2]⟩
        | cons p0 ps =>
          simp only [reSplit, hs, hc, if_pos]
          cases rest with
          | nil =>
            simp only [altRuns, Bool.and_eq_true] at ih ⊢
            exact ⟨⟨by simp [isTextRun], by simp [isDigitRun, hc]⟩, ih⟩
          | cons d rest2 =>
            simp only [altRuns, Bool.and_eq_true] at ih ⊢
            exact ⟨⟨by simp [isTextRun], by simp [isDigitRun, hc]⟩, ih⟩
      · simp only [reSplit, hs, hc, if_neg, Bool.false_eq_true, not_false_iff]
        cases rest with
        | nil =>
          simp only [altRuns] at ih ⊢
          simp only [isTextRun, List.all_cons, Bool.and_eq_true] at ih ⊢
          exact ⟨by simp [hc], ih⟩
        | cons d rest2 =>
          simp only [altRuns, Bool.and_eq_true] at ih ⊢
          refine ⟨⟨?_, ih.1.2⟩, ih.2⟩
          have ht : isTextRun p = true := ih.1.1
          simp only [isTextRun, List.all_cons, Bool.and_eq_true] at ht ⊢
          exact ⟨by simp [hc], ht⟩

theorem altRuns_get : ∀ (l : List PyStr), altRuns l = true → ∀ (i : Nat) (h : i < l.length),
    (if i % 2 = 0 then isTextRun (l.get ⟨i, h⟩) else isDigitRun (l.get ⟨i, h⟩)) = true
  | [], ha, i, h => absurd h (by simp)
  | [t], ha, 0, h => by simpa [altRuns] using ha
  | [t], _, i + 1, h => absurd h (by simp)
  | t :: d :: rest, ha, 0, h => by
    simp only [altRuns, Bool.and_eq_true] at ha
    simpa using ha.1.1
  | t :: d :: rest, ha, 1, h => by
    simp only [altRuns, Bool.and_eq_true] at ha
    simpa using ha.1.2
  | t :: d :: rest, ha, i + 2, h => by
    simp only [altRuns, Bool.and_eq_true] at ha
    have h2 : i < rest.length := by
      simp only [List.length_cons] at h
      omega
    have := altRuns_get rest ha.2 i h2
    have hmod : (i + 2) % 2 = i % 2 := by omega
    simpa [hmod, List.get] using this

theorem convertTok_text (p : PyStr) (h : isTextRun p = true) :
    (convertTok p).isNum = false := by
  cases p with
  | nil => simp [convertTok, Tok.isNum]
  | cons c cs =>
    simp only [isTextRun, List.all_cons, Bool.and_eq_true] at h
    have hc : c.isDigit = false := by simpa using h.1
    simp [convertTok, hc, Tok.isNum]

theorem convertTok_digit (p : PyStr) (h : isDigitRun p = true) :
    (convertTok p).isNum = true := by
  simp only [isDigitRun, Bool.and_eq_true] at h
  simp [convertTok, h.1, h.2, Tok.isNum]

theorem natural_sort_key_kind (s : PyStr) (i : Nat)
    (h : i < (natural_sort_key s).length) :
    ((natural_sort_key s).get ⟨i, h⟩).isNum = decide (i % 2 = 1) := by
  have hlen : i < (reSplit s).length := by
    simpa [natural_sort_key] using h
  have halt := altRuns_get (reSplit s) (reSplit_alt s) i hlen
  have hget : (natural_sort_key s).get ⟨i, h⟩ = convertTok ((reSplit s).get ⟨i, hlen⟩) := by
    simp [natural_sort_key]
  rw [hget]
  by_cases hp : i % 2 = 0
  · rw [if_pos hp] at halt
    have h1 : decide (i % 2 = 1) = false := by
      simp only [decide_eq_false_iff_not]
      omega
    rw [h1]
    exact convertTok_text _ halt
  · rw [if_neg hp] at halt
    have h1 : decide (i % 2 = 1) = true := by
      simp only [decide_eq_true_eq]
      omega
    rw [h1]
    exact convertTok_digit _ halt

/-! ### Facts about dot-splitting and string prefixes -/

theorem splitDot_ne_nil : ∀ s : PyStr, splitDot s ≠ [] := by
  intro s
  induction s with
  | nil => simp [splitDot]
  | cons c cs ih =>
    simp only [splitDot]
    cases hs : splitDot cs with
    | nil => exact absurd hs ih
    | cons p rest =>
      by_cases hc : c = '.'
      · simp [hc]
      · simp [hc]

theorem startsWithB_append_same : ∀ a b s : PyStr,
    startsWithB (a ++ b) (a ++ s) = startsWithB b s := by
  intro a
  induction a with
  | nil => intro b s; rfl
  | cons c cs ih =>
    intro b s
    simp only [List.cons_append, startsWithB, beq_self_eq_true, Bool.true_and]
    exact ih b s

theorem startsWithB_append_drop : ∀ p s : PyStr,
    startsWithB p s = true → s = p ++ s.drop p.length := by
  intro p
  induction p with
  | nil => intro s _; simp
  | cons c cs ih =>
    intro s h
    cases s with
    | nil => exact absurd h (by simp [startsWithB])
    | cons d ds =>
      simp only [startsWithB, Bool.and_eq_true, beq_iff_eq] at h
      have := ih ds h.2
      simp only [List.length_cons, List.drop_succ_cons, List.cons_append]
      rw [h.1]
      exact congrArg (d :: ·) this

theorem startsWithB_length : ∀ p s : PyStr,
    startsWithB p s = true → p.length ≤ s.length := by
  intro p s h
  have := startsWithB_append_drop p s h
  rw [this]
  simp

theorem splitDot_head_prefix : ∀ (s p : PyStr) (rest : List PyStr),
    splitDot s = p :: rest → rest ≠ [] → startsWithB (p ++ ['.']) s = true := by
  intro s
  induction s with
  | nil =>
    intro p rest h hne
    simp only [splitDot] at h
    cases h
    exact absurd rfl hne
  | cons c cs ih =>
    intro p rest h hne
    cases hs : splitDot cs with
    | nil => exact absurd hs (splitDot_ne_nil cs)
    | cons q rest2 =>
      simp only [splitDot, hs] at h
      by_cases hc : c = '.'
      · rw [if_pos hc] at h
        cases h
        subst hc
        simp [startsWithB]
      · rw [if_neg hc] at h
        injection h with h1 h2
        rw [← h1]
        have hr2 : rest2 ≠ [] := by rw [h2]; exact hne
        have := ih q rest2 hs hr2
        simp only [List.cons_append, startsWithB, beq_self_eq_true, Bool.true_and]
        exact this

/-! ### Bucket and partition lemmas -/

/-- All values stored in an association-list of buckets, in bucket order. -/
def flattenVals {α : Type} (gs : List (PyStr × List α)) : List α :=
  (gs.map Prod.snd).flatten

theorem bucketAdd_flatten_perm {α : Type} :
    ∀ (gs : List (PyStr × List α)) (k : PyStr) (t : α),
      (flattenVals (bucketAdd gs k t)).Perm (flattenVals gs ++ [t]) := by
  intro gs
  induction gs with
  | nil => intro k t; simp [bucketAdd, flattenVals]
  | cons hd rest ih =>
    intro k t
    obtain ⟨k2, b⟩ := hd
    simp only [bucketAdd]
    by_cases hk : k2 = k
    · rw [if_pos hk]
      simp only [flattenVals, List.map_cons, List.flatten_cons, List.append_assoc]
      exact List.Perm.append_left b List.perm_append_comm
    · rw [if_neg hk]
      simp only [flattenVals, List.map_cons, List.flatten_cons, List.append_assoc]
      exact List.Perm.append_left b (ih k t)

theorem bucketAdd_pred {α : Type} (P : PyStr → α → Prop) :
    ∀ (gs : List (PyStr × List α)) (k : PyStr) (t : α),
      (∀ k2 b, (k2, b) ∈ gs → ∀ u ∈ b, P k2 u) → P k t →
      ∀ k2 b, (k2, b) ∈ bucketAdd gs k t → ∀ u ∈ b, P k2 u := by
  intro gs
  induction gs with
  | nil =>
    intro k t _ hP k2 b hmem u hu
    simp only [bucketAdd, List.mem_singleton, Prod.mk.injEq] at hmem
    obtain ⟨hk, hb⟩ := hmem
    subst hk; subst hb
    simp only [List.mem_singleton] at hu
    subst hu
    exact hP
  | cons hd rest ih =>
    intro k t hall hP k2 b hmem u hu
    obtain ⟨k3, b3⟩ := hd
    simp only [bucketAdd] at hmem
    by_cases hk : k3 = k
    · rw [if_pos hk] at hmem
      rcases List.mem_cons.mp hmem with heq | hrest
      · obtain ⟨h1, h2⟩ := Prod.mk.injEq .. |>.mp heq
        subst h1; subst h2
        rcases List.mem_append.mp hu with h3 | h3
        · exact hall k2 b3 (List.mem_cons_self _ _) u h3
        · simp only [List.mem_singleton] at h3
          subst h3
          rw [hk]
          exact hP
      · exact hall k2 b (List.mem_cons_of_mem _ hrest) u hu
    · rw [if_neg hk] at hmem
      rcases List.mem_cons.mp hmem with heq | hrest
      · obtain ⟨h1, h2⟩ := Prod.mk.injEq .. |>.mp heq
        subst h1; subst h2
        exact hall k2 b (List.mem_cons_self _ _) u hu
      · exact ih k t (fun k4 b4 h4 => hall k4 b4 (List.mem_cons_of_mem _ h4)) hP
          k2 b hrest u hu

theorem bucketAdd_ne_nil {α : Type} :
    ∀ (gs : List (PyStr × List α)) (k : PyStr) (t : α),
      (∀ k2 b, (k2, b) ∈ gs → b ≠ []) →
      ∀ k2 b, (k2, b) ∈ bucketAdd gs k t → b ≠ [] := by
  intro gs
  induction gs with
  | nil =>
    intro k t _ k2 b hmem
    simp only [bucketAdd, List.mem_singleton, Prod.mk.injEq] at hmem
    rw [hmem.2]
    simp
  | cons hd rest ih =>
    intro k t hall k2 b hmem
    obtain ⟨k3, b3⟩ := hd
    simp only [bucketAdd] at hmem
    by_cases hk : k3 = k
    · rw [if_pos hk] at hmem
      rcases List.mem_cons.mp hmem with heq | hrest
      · obtain ⟨h1, h2⟩ := Prod.mk.injEq .. |>.mp heq
        rw [h2]
        simp
      · exact hall k2 b (List.mem_cons_of_mem _ hrest)
    · rw [if_neg hk] at hmem
      rcases List.mem_cons.mp hmem with heq | hrest
      · obtain ⟨h1, h2⟩ := Prod.mk.injEq .. |>.mp heq
        rw [h2]
        exact hall k3 b3 (List.mem_cons_self _ _)
      · exact ih k t (fun k4 b4 h4 => hall k4 b4 (List.mem_cons_of_mem _ h4)) k2 b hrest

/-- Contents (all buckets plus direct tensors) of a partition accumulator. -/
def combined (acc : List (PyStr × List TensorInfo) × List TensorInfo) :
    List TensorInfo :=
  flattenVals acc.1 ++ acc.2

theorem subStep_perm (pfx : PyStr)
    (acc : List (PyStr × List TensorInfo) × List TensorInfo) (t : TensorInfo) :
    (combined (subStep pfx acc t)).Perm (combined acc ++ [t]) := by
  simp only [subStep, combined]
  by_cases h : (splitDot (remainingName pfx t)).length = 1
  · rw [if_pos h]
    simp [List.append_assoc]
  · rw [if_neg h]
    have h1 := bucketAdd_flatten_perm acc.1 ((splitDot (remainingName pfx t)).headD []) t
    have h2 := h1.append_right acc.2
    refine h2.trans ?_
    have h3 : flattenVals acc.1 ++ [t] ++ acc.2 = flattenVals acc.1 ++ ([t] ++ acc.2) := by
      simp [List.append_assoc]
    rw [h3]
    have h4 : ([t] ++ acc.2).Perm (acc.2 ++ [t]) := List.perm_append_comm
    exact ((List.Perm.append_left _ h4).trans (by simp [List.append_assoc]))

theorem foldl_subStep_perm (pfx : PyStr) :
    ∀ (ts : List TensorInfo) (acc : List (PyStr × List TensorInfo) × List TensorInfo),
      (combined (ts.foldl (subStep pfx) acc)).Perm (combined acc ++ ts) := by
  intro ts
  induction ts with
  | nil => intro acc; simp
  | cons t ts ih =>
    intro acc
    have h1 := ih (subStep pfx acc t)
    have h2 := (subStep_perm pfx acc t).append_right ts
    refine (List.foldl_cons .. ▸ h1).trans ?_
    refine h2.trans ?_
    simp [List.append_assoc]

theorem subPartition_perm (pfx : PyStr) (ts : List TensorInfo) :
    (flattenVals (subPartition pfx ts).1 ++ (subPartition pfx ts).2).Perm ts := by
  have := foldl_subStep_perm pfx ts ([], [])
  simpa [subPartition, combined, flattenVals] using this

/-- The per-bucket facts the `build_subtree` partition guarantees. -/
def subBucketPred (pfx : PyStr) (g : PyStr) (t : TensorInfo) : Prop :=
  2 ≤ (splitDot (remainingName pfx t)).length ∧
    (splitDot (remainingName pfx t)).headD [] = g

theorem foldl_subStep_pred (pfx : PyStr) :
    ∀ (ts : List TensorInfo) (acc : List (PyStr × List TensorInfo) × List TensorInfo),
      (∀ g b, (g, b) ∈ acc.1 → ∀ t ∈ b, subBucketPred pfx g t) →
      ∀ g b, (g, b) ∈ (ts.foldl (subStep pfx) acc).1 → ∀ t ∈ b, subBucketPred pfx g t := by
  intro ts
  induction ts with
  | nil => intro acc h; exact h
  | cons t ts ih =>
    intro acc h
    refine ih (subStep pfx acc t) ?_
    simp only [subStep]
    by_cases hl : (splitDot (remainingName pfx t)).length = 1
    · rw [if_pos hl]
      exact h
    · rw [if_neg hl]
      refine bucketAdd_pred (subBucketPred pfx) acc.1 _ t h ?_
      constructor
      · have h0 := splitDot_ne_nil (remainingName pfx t)
        have h1 : 0 < (splitDot (remainingName pfx t)).length := List.length_pos.mpr h0
        omega
      · rfl

theorem foldl_subStep_ne_nil (pfx : PyStr) :
    ∀ (ts : List TensorInfo) (acc : List (PyStr × List TensorInfo) × List TensorInfo),
      (∀ g b, (g, b) ∈ acc.1 → b ≠ []) →
      ∀ g b, (g, b) ∈ (ts.foldl (subStep pfx) acc).1 → b ≠ [] := by
  intro ts
  induction ts with
  | nil => intro acc h; exact h
  | cons t ts ih =>
    intro acc h
    refine ih (subStep pfx acc t) ?_
    simp only [subStep]
    by_cases hl : (splitDot (remainingName pfx t)).length = 1
    · rw [if_pos hl]
      exact h
    · rw [if_neg hl]
      exact bucketAdd_ne_nil acc.1 _ t h

theorem subPartition_pred (pfx : PyStr) (ts : List TensorInfo) :
    ∀ g b, (g, b) ∈ (subPartition pfx ts).1 → ∀ t ∈ b, subBucketPred pfx g t :=
  foldl_subStep_pred pfx ts ([], []) (by intro g b h; simp at h)

theorem subPartition_ne_nil (pfx : PyStr) (ts : List TensorInfo) :
    ∀ g b, (g, b) ∈ (subPartition pfx ts).1 → b ≠ [] :=
  foldl_subStep_ne_nil pfx ts ([], []) (by intro g b h; simp at h)

/-- The bucket key each tensor receives in the `root_map` loop. -/
def rootKeyOf (t : TensorInfo) : PyStr :=
  if (splitDot t.name).length > 1 then (splitDot t.name).headD [] else rootKey

theorem rootStep_eq (acc : List (PyStr × List TensorInfo)) (t : TensorInfo) :
    rootStep acc t = bucketAdd acc (rootKeyOf t) t := by
  simp only [rootStep, rootKeyOf]
  by_cases h : (splitDot t.name).length > 1
  · rw [if_pos h, if_pos h]
  · rw [if_neg h, if_neg h]

theorem foldl_rootStep_perm :
    ∀ (ts : List TensorInfo) (acc : List (PyStr × List TensorInfo)),
      (flattenVals (ts.foldl rootStep acc)).Perm (flattenVals acc ++ ts) := by
  intro ts
  induction ts with
  | nil => intro acc; simp
  | cons t ts ih =>
    intro acc
    have h1 := ih (rootStep acc t)
    have h2 : (flattenVals (rootStep acc t)).Perm (flattenVals acc ++ [t]) := by
      rw [rootStep_eq]
      exact bucketAdd_flatten_perm acc (rootKeyOf t) t
    refine (List.foldl_cons .. ▸ h1).trans ?_
    refine (h2.append_right ts).trans ?_
    simp [List.append_assoc]

theorem rootPartition_perm (ts : List TensorInfo) :
    (flattenVals (rootPartition ts)).Perm ts := by
  have := foldl_rootStep_perm ts []
  simpa [rootPartition, flattenVals] using this

/-- What membership in a non-`"_root"` bucket of `root_map` guarantees. -/
def rootBucketPred (k : PyStr) (t : TensorInfo) : Prop :=
  k ≠ rootKey → 2 ≤ (splitDot t.name).length ∧ (splitDot t.name).headD [] = k

theorem foldl_rootStep_pred :
    ∀ (ts : List TensorInfo) (acc : List (PyStr × List TensorInfo)),
      (∀ k b, (k, b) ∈ acc → ∀ t ∈ b, rootBucketPred k t) →
      ∀ k b, (k, b) ∈ ts.foldl rootStep acc → ∀ t ∈ b, rootBucketPred k t := by
  intro ts
  induction ts with
  | nil => intro acc h; exact h
  | cons t ts ih =>
    intro acc h
    refine ih (rootStep acc t) ?_
    rw [rootStep_eq]
    refine bucketAdd_pred rootBucketPred acc (rootKeyOf t) t h ?_
    intro hne
    simp only [rootKeyOf] at hne ⊢
    by_cases hl : (splitDot t.name).length > 1
    · rw [if_pos hl]
      exact ⟨by omega, rfl⟩
    · rw [if_neg hl] at hne
      exact absurd rfl hne

theorem foldl_rootStep_ne_nil :
    ∀ (ts : List TensorInfo) (acc : List (PyStr × List TensorInfo)),
      (∀ k b, (k, b) ∈ acc → b ≠ []) →
      ∀ k b, (k, b) ∈ ts.foldl rootStep acc → b ≠ [] := by
  intro ts
  induction ts with
  | nil => intro acc h; exact h
  | cons t ts ih =>
    intro acc h
    refine ih (rootStep acc t) ?_
    rw [rootStep_eq]
    exact bucketAdd_ne_nil acc (rootKeyOf t) t h

theorem rootPartition_pred (ts : List TensorInfo) :
    ∀ k b, (k, b) ∈ rootPartition ts → ∀ t ∈ b, rootBucketPred k t :=
  foldl_rootStep_pred ts [] (by intro k b h; simp at h)

theorem rootPartition_ne_nil (ts : List TensorInfo) :
    ∀ k b, (k, b) ∈ rootPartition ts → b ≠ [] :=
  foldl_rootStep_ne_nil ts [] (by intro k b h; simp at h)

/-! ### Lemmas about subtree node collections -/

theorem allNodesN_eq (n : TreeNode) :
    allNodesN n = n :: allNodesO n.children := by
  cases n
  simp [allNodesN, TreeNode.children]

theorem allNodesL_cons (c : TreeNode) (cs : List TreeNode) :
    allNodesL (c :: cs) = allNodesN c ++ allNodesL cs := by
  simp [allNodesL]

theorem allNodesL_nil : allNodesL [] = [] := by
  simp [allNodesL]

theorem allNodesL_append :
    ∀ l1 l2 : List TreeNode, allNodesL (l1 ++ l2) = allNodesL l1 ++ allNodesL l2 := by
  intro l1
  induction l1 with
  | nil => intro l2; simp [allNodesL_nil]
  | cons c cs ih =>
    intro l2
    rw [List.cons_append, allNodesL_cons, allNodesL_cons, ih, List.append_assoc]

theorem allNodesL_eq_flatten (l : List TreeNode) :
    allNodesL l = (l.map allNodesN).flatten := by
  induction l with
  | nil => simp [allNodesL_nil]
  | cons c cs ih => rw [allNodesL_cons, List.map_cons, List.flatten_cons, ih]

theorem mem_allNodesL {n : TreeNode} {l : List TreeNode} :
    n ∈ allNodesL l ↔ ∃ m ∈ l, n ∈ allNodesN m := by
  rw [allNodesL_eq_flatten]
  constructor
  · intro h
    obtain ⟨s, hs, hn⟩ := List.mem_flatten.mp h
    obtain ⟨m, hm, rfl⟩ := List.mem_map.mp hs
    exact ⟨m, hm, hn⟩
  · intro ⟨m, hm, hn⟩
    exact List.mem_flatten.mpr ⟨allNodesN m, List.mem_map.mpr ⟨m, hm, rfl⟩, hn⟩

theorem self_mem_allNodesN (n : TreeNode) : n ∈ allNodesN n := by
  rw [allNodesN_eq]
  exact List.mem_cons_self _ _

theorem mem_allNodesL_of_mem {n : TreeNode} {l : List TreeNode} (h : n ∈ l) :
    n ∈ allNodesL l :=
  mem_allNodesL.mpr ⟨n, h, self_mem_allNodesN n⟩

theorem allNodesL_perm {l1 l2 : List TreeNode} (h : l1.Perm l2) :
    (allNodesL l1).Perm (allNodesL l2) := by
  rw [allNodesL_eq_flatten, allNodesL_eq_flatten]
  exact (h.map allNodesN).flatten

theorem leafInfosL_cons (c : TreeNode) (cs : List TreeNode) :
    leafInfosL (c :: cs) = leafInfosN c ++ leafInfosL cs := by
  simp [leafInfosL, leafInfosN, allNodesL_cons, List.filterMap_append]

theorem leafInfosL_nil : leafInfosL [] = [] := by
  simp [leafInfosL, allNodesL_nil]

theorem leafInfosL_append (l1 l2 : List TreeNode) :
    leafInfosL (l1 ++ l2) = leafInfosL l1 ++ leafInfosL l2 := by
  simp [leafInfosL, allNodesL_append, List.filterMap_append]

theorem leafInfosL_perm {l1 l2 : List TreeNode} (h : l1.Perm l2) :
    (leafInfosL l1).Perm (leafInfosL l2) :=
  (allNodesL_perm h).filterMap TreeNode.tensor_info

theorem allNodesN_mkLeaf (t : TensorInfo) : allNodesN (mkLeaf t) = [mkLeaf t] := by
  rw [allNodesN_eq]
  simp [mkLeaf, TreeNode.children, allNodesO]

theorem leafInfosN_mkLeaf (t : TensorInfo) : leafInfosN (mkLeaf t) = [t] := by
  simp only [leafInfosN]
  rw [allNodesN_mkLeaf]
  simp [mkLeaf, TreeNode.tensor_info]

theorem allNodesN_mkMetaLeaf (m : MetadataInfo) :
    allNodesN (mkMetaLeaf m) = [mkMetaLeaf m] := by
  rw [allNodesN_eq]
  simp [mkMetaLeaf, TreeNode.children, allNodesO]

theorem leafInfosN_mkMetaLeaf (m : MetadataInfo) : leafInfosN (mkMetaLeaf m) = [] := by
  simp only [leafInfosN]
  rw [allNodesN_mkMetaLeaf]
  simp [mkMetaLeaf, TreeNode.tensor_info]

theorem leafInfosL_map_mkLeaf : ∀ ts : List TensorInfo,
    leafInfosL (ts.map mkLeaf) = ts := by
  intro ts
  induction ts with
  | nil => simp [leafInfosL_nil]
  | cons t ts ih => rw [List.map_cons, leafInfosL_cons, leafInfosN_mkLeaf, ih]; rfl

theorem leafInfosL_map_mkMetaLeaf : ∀ ms : List MetadataInfo,
    leafInfosL (ms.map mkMetaLeaf) = [] := by
  intro ms
  induction ms with
  | nil => simp [leafInfosL_nil]
  | cons m ms ih => rw [List.map_cons, leafInfosL_cons, leafInfosN_mkMetaLeaf, ih]; rfl

theorem allNodesN_group (g : PyStr) (cs : List TreeNode) (e : Bool)
    (gts : List TensorInfo) :
    allNodesN (mkGroup g cs e gts) = mkGroup g cs e gts :: allNodesL cs := by
  rw [allNodesN_eq]
  simp [mkGroup, TreeNode.children, allNodesO]

theorem leafInfosN_group (g : PyStr) (cs : List TreeNode) (e : Bool)
    (gts : List TensorInfo) :
    leafInfosN (mkGroup g cs e gts) = leafInfosL cs := by
  simp only [leafInfosN, leafInfosL]
  rw [allNodesN_group]
  simp [mkGroup, TreeNode.tensor_info]

/-! ### The per-node invariant of built trees -/

/-- Every node the builder constructs satisfies this: leaves carry exactly one
of `tensor_info` / `metadata_info` and no children; groups carry children
only — nonempty, natural-sorted by node name — and aggregate the count and
byte total of the tensor leaves of their whole subtree. -/
def NodeOK (n : TreeNode) : Prop :=
  match n.children with
  | none =>
    (n.tensor_info.isSome = true ∧ n.metadata_info = none) ∨
    (n.metadata_info.isSome = true ∧ n.tensor_info = none)
  | some cs =>
    n.tensor_info = none ∧ n.metadata_info = none ∧ cs ≠ [] ∧
    sortedB nodeLe cs = true ∧
    n.tensor_count = (leafInfosL cs).length ∧
    n.total_size = sumBytes (leafInfosL cs)

theorem NodeOK_mkLeaf (t : TensorInfo) : NodeOK (mkLeaf t) := by
  simp [NodeOK, mkLeaf, TreeNode.children, TreeNode.tensor_info, TreeNode.metadata_info]

theorem NodeOK_mkMetaLeaf (m : MetadataInfo) : NodeOK (mkMetaLeaf m) := by
  simp [NodeOK, mkMetaLeaf, TreeNode.children, TreeNode.tensor_info, TreeNode.metadata_info]

theorem NodeOK_group (g : PyStr) (cs : List TreeNode) (e : Bool) (gts : List TensorInfo)
    (hperm : (leafInfosL cs).Perm gts) (hsort : sortedB nodeLe cs = true)
    (hne : gts ≠ []) : NodeOK (mkGroup g cs e gts) := by
  have hcs : cs ≠ [] := by
    intro hnil
    rw [hnil, leafInfosL_nil] at hperm
    exact hne (hperm.symm.eq_nil)
  have hlen : gts.length = (leafInfosL cs).length := (hperm.length_eq).symm
  have hsum : sumBytes gts = sumBytes (leafInfosL cs) :=
    ((hperm.map TensorInfo.size_bytes).sum_eq).symm
  simp only [NodeOK, mkGroup, TreeNode.children, TreeNode.tensor_info,
    TreeNode.metadata_info, TreeNode.tensor_count, TreeNode.total_size]
  exact ⟨trivial, trivial, hcs, hsort, hlen, hsum⟩

theorem allNodesL_map_mkLeaf : ∀ ts : List TensorInfo,
    allNodesL (ts.map mkLeaf) = ts.map mkLeaf := by
  intro ts
  induction ts with
  | nil => simp [allNodesL_nil]
  | cons t ts ih => rw [List.map_cons, allNodesL_cons, allNodesN_mkLeaf, ih]; rfl

theorem allNodesL_map_mkMetaLeaf : ∀ ms : List MetadataInfo,
    allNodesL (ms.map mkMetaLeaf) = ms.map mkMetaLeaf := by
  intro ms
  induction ms with
  | nil => simp [allNodesL_nil]
  | cons m ms ih => rw [List.map_cons, allNodesL_cons, allNodesN_mkMetaLeaf, ih]; rfl

theorem mem_flattenVals {α : Type} {gs : List (PyStr × List α)} {g : PyStr}
    {b : List α} {t : α} (hgs : (g, b) ∈ gs) (ht : t ∈ b) : t ∈ flattenVals gs :=
  List.mem_flatten.mpr ⟨b, List.mem_map.mpr ⟨(g, b), hgs, rfl⟩, ht⟩

/-! ### The master induction for `build_subtree` -/

theorem buildGroups_ok (f : List TensorInfo → PyStr → Option (List TreeNode))
    (pfx : PyStr) :
    ∀ gs : List (PyStr × List TensorInfo),
      (∀ g gts, (g, gts) ∈ gs → gts ≠ []) →
      (∀ g gts, (g, gts) ∈ gs → ∃ l, f gts (pfx ++ '.' :: g) = some l ∧
        (leafInfosL l).Perm gts ∧ sortedB nodeLe l = true ∧
        ∀ n ∈ allNodesL l, NodeOK n) →
      ∃ gl, buildGroupsWith f gs pfx = some gl ∧
        (leafInfosL gl).Perm (flattenVals gs) ∧
        ∀ n ∈ allNodesL gl, NodeOK n := by
  intro gs
  induction gs with
  | nil =>
    intro _ _
    refine ⟨[], rfl, ?_, ?_⟩
    · simp [leafInfosL_nil, flattenVals]
    · intro n hn
      rw [allNodesL_nil] at hn
      exact absurd hn (List.not_mem_nil n)
  | cons hd rest ih =>
    intro hne hf
    obtain ⟨g, gts⟩ := hd
    obtain ⟨l, hl, hperm, hsort, hok⟩ := hf g gts (List.mem_cons_self _ _)
    obtain ⟨gl, hgl, hglperm, hglok⟩ :=
      ih (fun g2 b2 h2 => hne g2 b2 (List.mem_cons_of_mem _ h2))
         (fun g2 b2 h2 => hf g2 b2 (List.mem_cons_of_mem _ h2))
    refine ⟨mkGroup g l false gts :: gl, ?_, ?_, ?_⟩
    · simp only [buildGroupsWith, hl, hgl]
    · rw [leafInfosL_cons, leafInfosN_group]
      have hfv : flattenVals ((g, gts) :: rest) = gts ++ flattenVals rest := by
        simp [flattenVals]
      rw [hfv]
      exact hperm.append hglperm
    · intro n hn
      rw [allNodesL_cons] at hn
      rcases List.mem_append.mp hn with h1 | h1
      · rw [allNodesN_group] at h1
        rcases List.mem_cons.mp h1 with h2 | h2
        · subst h2
          exact NodeOK_group g l false gts hperm hsort
            (hne g gts (List.mem_cons_self _ _))
        · exact hok n h2
      · exact hglok n h1

theorem buildSubtreeF_succ (fuel : Nat) (ts : List TensorInfo) (pfx : PyStr) :
    buildSubtreeF (fuel + 1) ts pfx =
      match buildGroupsWith (buildSubtreeF fuel) (subPartition pfx ts).1 pfx with
      | none => none
      | some gnodes => some (sortNodes ((subPartition pfx ts).2.map mkLeaf ++ gnodes)) :=
  rfl

theorem bucket_startsWith (pfx : PyStr) (t : TensorInfo) (g : PyStr)
    (hsw : startsWithB (pfx ++ ['.']) t.name = true)
    (hlen2 : 2 ≤ (splitDot (remainingName pfx t)).length)
    (hhead : (splitDot (remainingName pfx t)).headD [] = g) :
    startsWithB ((pfx ++ '.' :: g) ++ ['.']) t.name = true := by
  have hrem : remainingName pfx t = t.name.drop (pfx.length + 1) := by
    simp [remainingName, hsw]
  have hdrop := startsWithB_append_drop _ _ hsw
  have hlenp : (pfx ++ ['.']).length = pfx.length + 1 := by simp
  rw [hlenp] at hdrop
  set rem := t.name.drop (pfx.length + 1) with hremdef
  cases hsp : splitDot rem with
  | nil => exact absurd hsp (splitDot_ne_nil rem)
  | cons p restp =>
    have hpg : p = g := by
      rw [hrem] at hhead
      rw [hsp] at hhead
      simpa using hhead
    have hrestp : restp ≠ [] := by
      intro hnil
      rw [hrem, hsp, hnil] at hlen2
      simp at hlen2
    have hsw2 : startsWithB (p ++ ['.']) rem = true :=
      splitDot_head_prefix rem p restp hsp hrestp
    have hassoc : (pfx ++ '.' :: g) ++ ['.'] = (pfx ++ ['.']) ++ (g ++ ['.']) := by
      simp
    rw [hassoc, hdrop, startsWithB_append_same]
    rw [hpg] at hsw2
    exact hsw2

theorem subtree_ok :
    ∀ (fuel : Nat) (ts : List TensorInfo) (pfx : PyStr),
      (∀ t ∈ ts, startsWithB (pfx ++ ['.']) t.name = true) →
      (∀ t ∈ ts, t.name.length ≤ pfx.length + fuel) →
      ∃ l, buildSubtreeF (fuel + 1) ts pfx = some l ∧
        (leafInfosL l).Perm ts ∧ sortedB nodeLe l = true ∧
        ∀ n ∈ allNodesL l, NodeOK n := by
  have assemble : ∀ (fuel : Nat) (ts : List TensorInfo) (pfx : PyStr)
      (gl : List TreeNode),
      buildGroupsWith (buildSubtreeF fuel) (subPartition pfx ts).1 pfx = some gl →
      (leafInfosL gl).Perm (flattenVals (subPartition pfx ts).1) →
      (∀ n ∈ allNodesL gl, NodeOK n) →
      ∃ l, buildSubtreeF (fuel + 1) ts pfx = some l ∧
        (leafInfosL l).Perm ts ∧ sortedB nodeLe l = true ∧
        ∀ n ∈ allNodesL l, NodeOK n := by
    intro fuel ts pfx gl hgl hglperm hglok
    refine ⟨sortNodes ((subPartition pfx ts).2.map mkLeaf ++ gl), ?_, ?_, ?_, ?_⟩
    · rw [buildSubtreeF_succ, hgl]
    · have hp1 := leafInfosL_perm (sortLe_perm nodeLe
        ((subPartition pfx ts).2.map mkLeaf ++ gl))
      rw [leafInfosL_append, leafInfosL_map_mkLeaf] at hp1
      refine hp1.trans ?_
      refine (List.Perm.append_left _ hglperm).trans ?_
      exact List.perm_append_comm.trans (subPartition_perm pfx ts)
    · exact sortLe_sorted nodeLe nodeLe_total _
    · intro n hn
      have hmem := (allNodesL_perm (sortLe_perm nodeLe _)).mem_iff.mp hn
      rw [allNodesL_append] at hmem
      rcases List.mem_append.mp hmem with h1 | h1
      · rw [allNodesL_map_mkLeaf] at h1
        obtain ⟨t, _, rfl⟩ := List.mem_map.mp h1
        exact NodeOK_mkLeaf t
      · exact hglok n h1
  intro fuel
  induction fuel with
  | zero =>
    intro ts pfx h1 h2
    have hnil : (subPartition pfx ts).1 = [] := by
      cases hpr : (subPartition pfx ts).1 with
      | nil => rfl
      | cons hd rest =>
        exfalso
        obtain ⟨g, gts⟩ := hd
        have hm : (g, gts) ∈ (subPartition pfx ts).1 := by
          rw [hpr]; exact List.mem_cons_self _ _
        have hnem := subPartition_ne_nil pfx ts g gts hm
        obtain ⟨t, ht⟩ := List.exists_mem_of_ne_nil gts hnem
        have hts : t ∈ ts := by
          have := mem_flattenVals hm ht
          exact (subPartition_perm pfx ts).mem_iff.mp (List.mem_append.mpr (.inl this))
        have hlow := startsWithB_length _ _ (h1 t hts)
        have hhigh := h2 t hts
        simp only [List.length_append, List.length_cons, List.length_nil] at hlow
        omega
    refine assemble 0 ts pfx [] ?_ ?_ ?_
    · rw [hnil]; rfl
    · rw [hnil]
      simp [leafInfosL_nil, flattenVals]
    · intro n hn
      rw [allNodesL_nil] at hn
      exact absurd hn (List.not_mem_nil n)
  | succ fuel ih =>
    intro ts pfx h1 h2
    have hbuckets := subPartition_pred pfx ts
    have hne := subPartition_ne_nil pfx ts
    obtain ⟨gl, hgl, hglperm, hglok⟩ :=
      buildGroups_ok (buildSubtreeF (fuel + 1)) pfx (subPartition pfx ts).1
        (fun g gts hm => hne g gts hm)
        (by
          intro g gts hm
          have hmemts : ∀ t ∈ gts, t ∈ ts := by
            intro t ht
            have := mem_flattenVals hm ht
            exact (subPartition_perm pfx ts).mem_iff.mp (List.mem_append.mpr (.inl this))
          refine ih gts (pfx ++ '.' :: g) ?_ ?_
          · intro t ht
            have hpredt := hbuckets g gts hm t ht
            exact bucket_startsWith pfx t g (h1 t (hmemts t ht)) hpredt.1 hpredt.2
          · intro t ht
            have := h2 t (hmemts t ht)
            simp only [List.length_append, List.length_cons]
            omega)
    exact assemble (fuel + 1) ts pfx gl hgl hglperm hglok

/-! ### From buckets to the whole tree -/

theorem bucket_subtree_some (ts : List TensorInfo) (k : PyStr) (b : List TensorInfo)
    (hmem : (k, b) ∈ rootPartition ts) (hk : k ≠ rootKey) :
    ∃ l, buildSubtreeF (treeFuel ts) (sortTensors b) k = some l ∧
      (leafInfosL l).Perm b ∧ sortedB nodeLe l = true ∧
      ∀ n ∈ allNodesL l, NodeOK n := by
  have hsortperm := sortLe_perm tensLe b
  have hmemb : ∀ t ∈ sortTensors b, t ∈ b := fun t ht => hsortperm.mem_iff.mp ht
  have hmemts : ∀ t ∈ b, t ∈ ts := by
    intro t ht
    exact (rootPartition_perm ts).mem_iff.mp (mem_flattenVals hmem ht)
  have hpred := rootPartition_pred ts k b hmem
  have hcond1 : ∀ t ∈ sortTensors b, startsWithB (k ++ ['.']) t.name = true := by
    intro t ht
    obtain ⟨hlen2, hhead⟩ := hpred t (hmemb t ht) hk
    cases hsp : splitDot t.name with
    | nil => exact absurd hsp (splitDot_ne_nil _)
    | cons p restp =>
      have hp : p = k := by rw [hsp] at hhead; simpa using hhead
      have hrestp : restp ≠ [] := by
        intro hnil
        rw [hsp, hnil] at hlen2
        simp at hlen2
      rw [← hp]
      exact splitDot_head_prefix t.name p restp hsp hrestp
  have hcond2 : ∀ t ∈ sortTensors b,
      t.name.length ≤ k.length + (ts.map (fun t => t.name.length)).sum := by
    intro t ht
    have hin : t.name.length ∈ ts.map (fun t => t.name.length) :=
      List.mem_map.mpr ⟨t, hmemts t (hmemb t ht), rfl⟩
    have := List.single_le_sum (by intro x _; exact Nat.zero_le x) _ hin
    omega
  obtain ⟨l, hl, hperm, hsort, hok⟩ :=
    subtree_ok ((ts.map (fun t => t.name.length)).sum) (sortTensors b) k hcond1 hcond2
  refine ⟨l, ?_, hperm.trans hsortperm, hsort, hok⟩
  rw [treeFuel]
  exact hl

theorem emitEntry_ok (ts : List TensorInfo) (k : PyStr) (b : List TensorInfo)
    (hmem : (k, b) ∈ rootPartition ts) :
    (leafInfosL (emitEntry ts (k, b))).Perm b ∧
    ∀ n ∈ allNodesL (emitEntry ts (k, b)), NodeOK n := by
  by_cases hk : k = rootKey
  · have hemit : emitEntry ts (k, b) = b.map mkLeaf := by
      simp [emitEntry, hk]
    rw [hemit]
    constructor
    · rw [leafInfosL_map_mkLeaf]
    · intro n hn
      rw [allNodesL_map_mkLeaf] at hn
      obtain ⟨t, _, rfl⟩ := List.mem_map.mp hn
      exact NodeOK_mkLeaf t
  · obtain ⟨l, hl, hperm, hsort, hok⟩ := bucket_subtree_some ts k b hmem hk
    have hemit : emitEntry ts (k, b) = [mkGroup k l true b] := by
      simp only [emitEntry, if_neg hk]
      rw [hl]
      rfl
    rw [hemit]
    have hbne : b ≠ [] := rootPartition_ne_nil ts k b hmem
    constructor
    · rw [leafInfosL_cons, leafInfosL_nil, leafInfosN_group, List.append_nil]
      exact hperm
    · intro n hn
      rw [allNodesL_cons, allNodesL_nil, List.append_nil, allNodesN_group] at hn
      rcases List.mem_cons.mp hn with h2 | h2
      · subst h2
        exact NodeOK_group k l true b hperm hsort hbne
      · exact hok n h2

theorem flatMap_emit_perm (ts : List TensorInfo) :
    ∀ rm : List (PyStr × List TensorInfo),
      (∀ p ∈ rm, (leafInfosL (emitEntry ts p)).Perm p.2) →
      (leafInfosL (rm.flatMap (emitEntry ts))).Perm (flattenVals rm) := by
  intro rm
  induction rm with
  | nil => intro _; simp [leafInfosL_nil, flattenVals]
  | cons hd rest ih =>
    intro h
    rw [List.flatMap_cons, leafInfosL_append]
    have hfv : flattenVals (hd :: rest) = hd.2 ++ flattenVals rest := by
      simp [flattenVals]
    rw [hfv]
    exact (h hd (List.mem_cons_self _ _)).append
      (ih (fun p hp => h p (List.mem_cons_of_mem _ hp)))

theorem flatMap_emit_ok (ts : List TensorInfo) :
    ∀ rm : List (PyStr × List TensorInfo),
      (∀ p ∈ rm, ∀ n ∈ allNodesL (emitEntry ts p), NodeOK n) →
      ∀ n ∈ allNodesL (rm.flatMap (emitEntry ts)), NodeOK n := by
  intro rm
  induction rm with
  | nil =>
    intro _ n hn
    rw [List.flatMap_nil, allNodesL_nil] at hn
    exact absurd hn (List.not_mem_nil n)
  | cons hd rest ih =>
    intro h n hn
    rw [List.flatMap_cons, allNodesL_append] at hn
    rcases List.mem_append.mp hn with h1 | h1
    · exact h hd (List.mem_cons_self _ _) n h1
    · exact ih (fun p hp => h p (List.mem_cons_of_mem _ hp)) n h1

theorem build_tree_ok (ts : List TensorInfo) :
    (leafInfosL (build_tree ts)).Perm ts ∧
    sortedB nodeLe (build_tree ts) = true ∧
    ∀ n ∈ allNodesL (build_tree ts), NodeOK n := by
  have hperm1 := leafInfosL_perm (sortLe_perm nodeLe
    ((rootPartition ts).flatMap (emitEntry ts)))
  have hentry : ∀ p ∈ rootPartition ts, (leafInfosL (emitEntry ts p)).Perm p.2 := by
    intro p hp
    obtain ⟨k, b⟩ := p
    exact (emitEntry_ok ts k b hp).1
  refine ⟨?_, ?_, ?_⟩
  · refine hperm1.trans ?_
    exact (flatMap_emit_perm ts (rootPartition ts) hentry).trans (rootPartition_perm ts)
  · exact sortLe_sorted nodeLe nodeLe_total _
  · intro n hn
    have hmem := (allNodesL_perm (sortLe_perm nodeLe _)).mem_iff.mp hn
    refine flatMap_emit_ok ts (rootPartition ts) ?_ n hmem
    intro p hp
    obtain ⟨k, b⟩ := p
    exact (emitEntry_ok ts k b hp).2

theorem sortNodes_perm (l : List TreeNode) : (sortNodes l).Perm l :=
  sortLe_perm nodeLe l

theorem sortNodes_sorted (l : List TreeNode) : sortedB nodeLe (sortNodes l) = true :=
  sortLe_sorted nodeLe nodeLe_total l

theorem metaGroup_children_leafInfos (ms : List MetadataInfo) :
    leafInfosL (sortNodes (ms.map mkMetaLeaf)) = [] := by
  have := leafInfosL_perm (sortNodes_perm (ms.map mkMetaLeaf))
  rw [leafInfosL_map_mkMetaLeaf] at this
  exact this.eq_nil

theorem leafInfosN_metaGroup (ms : List MetadataInfo) :
    leafInfosN (metaGroupNode ms) = [] := by
  rw [leafInfosN, allNodesN_eq]
  simp only [metaGroupNode, TreeNode.children, allNodesO, List.filterMap_cons]
  have h2 := metaGroup_children_leafInfos ms
  simp only [leafInfosL] at h2
  simp [TreeNode.tensor_info, h2]

theorem metaGroup_ok (ms : List MetadataInfo) (hms : ms ≠ []) :
    NodeOK (metaGroupNode ms) := by
  have hne : sortNodes (ms.map mkMetaLeaf) ≠ [] := by
    intro hnil
    have hsperm := sortNodes_perm (ms.map mkMetaLeaf)
    rw [hnil] at hsperm
    have := hsperm.symm.eq_nil
    exact hms (List.map_eq_nil_iff.mp this)
  have hleaf := metaGroup_children_leafInfos ms
  simp only [NodeOK, metaGroupNode, TreeNode.children, TreeNode.tensor_info,
    TreeNode.metadata_info, TreeNode.tensor_count, TreeNode.total_size]
  refine ⟨trivial, trivial, hne, sortNodes_sorted _, ?_, ?_⟩
  · rw [hleaf]; rfl
  · rw [hleaf]; rfl

theorem mem_allNodes_metaGroup {n : TreeNode} (ms : List MetadataInfo)
    (hn : n ∈ allNodesN (metaGroupNode ms)) :
    n = metaGroupNode ms ∨ ∃ m ∈ ms, n = mkMetaLeaf m := by
  rw [allNodesN_eq] at hn
  rcases List.mem_cons.mp hn with h2 | h2
  · exact .inl h2
  · simp only [metaGroupNode, TreeNode.children, allNodesO] at h2
    have hmem2 := (allNodesL_perm (sortNodes_perm _)).mem_iff.mp h2
    rw [allNodesL_map_mkMetaLeaf] at hmem2
    obtain ⟨m, hm, rfl⟩ := List.mem_map.mp hmem2
    exact .inr ⟨m, hm, rfl⟩

theorem build_tree_mixed_ok (ts : List TensorInfo) (ms : List MetadataInfo) :
    (leafInfosL (build_tree_mixed ts ms)).Perm ts ∧
    ∀ n ∈ allNodesL (build_tree_mixed ts ms), NodeOK n := by
  obtain ⟨hp, _, hok⟩ := build_tree_ok ts
  cases ms with
  | nil =>
    constructor
    · simpa [build_tree_mixed] using hp
    · intro n hn
      simp only [build_tree_mixed, List.nil_append] at hn
      exact hok n hn
  | cons m0 ms0 =>
    have heq : build_tree_mixed ts (m0 :: ms0) =
        metaGroupNode (m0 :: ms0) :: build_tree ts := rfl
    rw [heq]
    constructor
    · rw [leafInfosL_cons, leafInfosN_metaGroup, List.nil_append]
      exact hp
    · intro n hn
      rw [allNodesL_cons] at hn
      rcases List.mem_append.mp hn with h1 | h1
      · rcases mem_allNodes_metaGroup (m0 :: ms0) h1 with h2 | ⟨m, _, rfl⟩
        · subst h2
          exact metaGroup_ok (m0 :: ms0) (by simp)
        · exact NodeOK_mkMetaLeaf m
      · exact hok n h1

/-! ### Lemmas about the loader's first-wins dedup -/

/-- One step of the dedup loop in `ModelLoader.load`. -/
def dedupStep (acc : List TensorInfo) (t : TensorInfo) : List TensorInfo :=
  if acc.any (fun u => u.name == t.name) then acc else acc ++ [t]

theorem dedupTensors_eq_foldl (ts : List TensorInfo) :
    dedupTensors ts = ts.foldl dedupStep [] := rfl

theorem dedup_mono : ∀ (ts acc : List TensorInfo),
    ∃ ext, ts.foldl dedupStep acc = acc ++ ext := by
  intro ts
  induction ts with
  | nil => intro acc; exact ⟨[], by simp⟩
  | cons t ts ih =>
    intro acc
    rw [List.foldl_cons]
    by_cases h : acc.any (fun u => u.name == t.name) = true
    · have hstep : dedupStep acc t = acc := by simp [dedupStep, h]
      rw [hstep]
      exact ih acc
    · have hstep : dedupStep acc t = acc ++ [t] := by simp [dedupStep, h]
      rw [hstep]
      obtain ⟨ext, hext⟩ := ih (acc ++ [t])
      exact ⟨[t] ++ ext, by rw [hext, List.append_assoc]⟩

theorem dedup_names_nodup : ∀ (ts acc : List TensorInfo),
    (acc.map TensorInfo.name).Nodup →
    ((ts.foldl dedupStep acc).map TensorInfo.name).Nodup := by
  intro ts
  induction ts with
  | nil => intro acc h; exact h
  | cons t ts ih =>
    intro acc h
    rw [List.foldl_cons]
    refine ih (dedupStep acc t) ?_
    by_cases hany : acc.any (fun u => u.name == t.name) = true
    · simpa [dedupStep, hany] using h
    · have hstep : dedupStep acc t = acc ++ [t] := by simp [dedupStep, hany]
      rw [hstep, List.map_append]
      simp only [List.any_eq_true, beq_iff_eq, not_exists] at hany
      rw [List.nodup_append]
      refine ⟨h, by simp, ?_⟩
      intro x hx
      simp only [List.map_cons, List.map_nil, List.mem_singleton]
      intro hxx
      obtain ⟨u, hu, rfl⟩ := List.mem_map.mp hx
      exact hany u ⟨hu, hxx⟩

theorem dedup_find : ∀ (ts acc : List TensorInfo) (u : TensorInfo),
    u ∈ ts.foldl dedupStep acc →
    u ∈ acc ∨ (ts.find? (fun v => v.name == u.name) = some u ∧
               ∀ w ∈ acc, w.name ≠ u.name) := by
  intro ts
  induction ts with
  | nil =>
    intro acc u hu
    exact .inl (by simpa using hu)
  | cons t ts ih =>
    intro acc u hu
    rw [List.foldl_cons] at hu
    by_cases hany : acc.any (fun v => v.name == t.name) = true
    · have hstep : dedupStep acc t = acc := by simp [dedupStep, hany]
      rw [hstep] at hu
      rcases ih acc u hu with h1 | ⟨h1, h2⟩
      · exact .inl h1
      · refine .inr ⟨?_, h2⟩
        have htu : t.name ≠ u.name := by
          simp only [List.any_eq_true, beq_iff_eq] at hany
          obtain ⟨w, hw, hwt⟩ := hany
          intro heq
          exact h2 w hw (hwt.trans heq)
        rw [List.find?_cons_of_neg _ (by simpa using htu)]
        exact h1
    · have hstep : dedupStep acc t = acc ++ [t] := by simp [dedupStep, hany]
      rw [hstep] at hu
      rcases ih (acc ++ [t]) u hu with h1 | ⟨h1, h2⟩
      · rcases List.mem_append.mp h1 with h2 | h2
        · exact .inl h2
        · simp only [List.mem_singleton] at h2
          subst h2
          refine .inr ⟨?_, ?_⟩
          · rw [List.find?_cons_of_pos _ (by simp)]
          · intro w hw heq
            simp only [List.any_eq_true, beq_iff_eq, not_exists] at hany
            exact hany w ⟨hw, heq⟩
      · refine .inr ⟨?_, fun w hw => h2 w (List.mem_append.mpr (.inl hw))⟩
        have htu : t.name ≠ u.name := h2 t (List.mem_append.mpr (.inr (by simp)))
        rw [List.find?_cons_of_neg _ (by simpa using htu)]
        exact h1

theorem dedup_coverage : ∀ (ts acc : List TensorInfo) (t : TensorInfo), t ∈ ts →
    ∃ u ∈ ts.foldl dedupStep acc, u.name = t.name := by
  intro ts
  induction ts with
  | nil => intro acc t ht; exact absurd ht (List.not_mem_nil t)
  | cons t0 ts ih =>
    intro acc t ht
    rw [List.foldl_cons]
    rcases List.mem_cons.mp ht with rfl | hmem
    · by_cases hany : acc.any (fun u => u.name == t.name) = true
      · have hstep : dedupStep acc t = acc := by simp [dedupStep, hany]
        rw [hstep]
        simp only [List.any_eq_true, beq_iff_eq] at hany
        obtain ⟨u, hu, hun⟩ := hany
        obtain ⟨ext, hext⟩ := dedup_mono ts acc
        exact ⟨u, by rw [hext]; exact List.mem_append.mpr (.inl hu), hun⟩
      · have hstep : dedupStep acc t = acc ++ [t] := by simp [dedupStep, hany]
        rw [hstep]
        obtain ⟨ext, hext⟩ := dedup_mono ts (acc ++ [t])
        refine ⟨t, ?_, rfl⟩
        rw [hext]
        exact List.mem_append.mpr (.inl (List.mem_append.mpr (.inr (by simp))))
    · exact ih (dedupStep acc t0) t hmem

theorem dedupTensors_first_wins (ts : List TensorInfo) :
    ∀ u ∈ dedupTensors ts, ts.find? (fun v => v.name == u.name) = some u := by
  intro u hu
  rw [dedupTensors_eq_foldl] at hu
  rcases dedup_find ts [] u hu with h1 | ⟨h1, _⟩
  · exact absurd h1 (List.not_mem_nil u)
  · exact h1

theorem dedupTensors_nodup (ts : List TensorInfo) :
    ((dedupTensors ts).map TensorInfo.name).Nodup := by
  rw [dedupTensors_eq_foldl]
  exact dedup_names_nodup ts [] (by simp)

theorem dedupTensors_coverage (ts : List TensorInfo) :
    ∀ t ∈ ts, ∃ u ∈ dedupTensors ts, u.name = t.name := by
  intro t ht
  rw [dedupTensors_eq_foldl]
  exact dedup_coverage ts [] t ht

/-! ### Bit lengths and float exactness -/

theorem bitLenAux_zero : ∀ fuel : Nat, bitLenAux fuel 0 = 0 := by
  intro fuel
  cases fuel with
  | zero => rfl
  | succ f => simp [bitLenAux]

theorem bitLenAux_correct : ∀ (fuel n : Nat), 0 < n → n ≤ fuel →
    2 ^ (bitLenAux fuel n - 1) ≤ n ∧ n < 2 ^ bitLenAux fuel n := by
  intro fuel
  induction fuel with
  | zero => intro n h1 h2; omega
  | succ f ih =>
    intro n h1 h2
    have hne : ¬(n = 0) := by omega
    simp only [bitLenAux, hne, if_false]
    by_cases hn1 : n = 1
    · subst hn1
      have h0 : (1 : Nat) / 2 = 0 := by norm_num
      rw [h0, bitLenAux_zero]
      norm_num
    · have hdpos : 0 < n / 2 := by omega
      have hdle : n / 2 ≤ f := by omega
      obtain ⟨ihl, ihr⟩ := ih (n / 2) hdpos hdle
      have hl2pos : 1 ≤ bitLenAux f (n / 2) := by
        by_contra hc
        have hz : bitLenAux f (n / 2) = 0 := by omega
        rw [hz] at ihr
        simp at ihr
        omega
      obtain ⟨m, hm⟩ := Nat.exists_eq_add_of_le hl2pos
      rw [hm] at ihl ihr ⊢
      have e1 : 1 + m - 1 = m := by omega
      rw [e1] at ihl
      have e2 : 2 ^ (1 + m) = 2 * 2 ^ m := by
        rw [pow_add]
        ring
      have e3 : 2 ^ (1 + (1 + m)) = 2 * 2 ^ (1 + m) := by
        rw [pow_add]
        ring
      constructor
      · have e4 : 1 + (1 + m) - 1 = 1 + m := by omega
        rw [e4]
        omega
      · omega

theorem bitLen_correct (n : Nat) (h : 0 < n) :
    2 ^ (bitLen n - 1) ≤ n ∧ n < 2 ^ bitLen n :=
  bitLenAux_correct n n h le_rfl

theorem bitLen_le_of_lt (n k : Nat) (h : n < 2 ^ k) : bitLen n ≤ k := by
  cases Nat.eq_zero_or_pos n with
  | inl h0 =>
    rw [h0]
    simp [bitLen, bitLenAux]
  | inr hpos =>
    by_contra hc
    have h1 : k ≤ bitLen n - 1 := by omega
    have h2 : 2 ^ k ≤ 2 ^ (bitLen n - 1) := Nat.pow_le_pow_right (by omega) h1
    have h3 := (bitLen_correct n hpos).1
    omega

theorem floatOfNat_small (n : Nat) (h : n < 2 ^ 53) : floatOfNat n = (n, 0) := by
  have h1 : bitLen n ≤ 53 := bitLen_le_of_lt n 53 h
  simp [floatOfNat, h1]

theorem format_size_eq (n : Nat) (h : n < 2 ^ 53) :
    format_size n =
      if n < 1024 then toString n ++ " B"
      else if n < 1024 * 1024 then
        toString (rndHalfEven (10 * n) 1024 / 10) ++ "." ++
          toString (rndHalfEven (10 * n) 1024 % 10) ++ " KB"
      else if n < 1024 * 1024 * 1024 then
        toString (rndHalfEven (10 * n) (1024 * 1024) / 10) ++ "." ++
          toString (rndHalfEven (10 * n) (1024 * 1024) % 10) ++ " MB"
      else
        toString (rndHalfEven (10 * n) (1024 * 1024 * 1024) / 10) ++ "." ++
          toString (rndHalfEven (10 * n) (1024 * 1024 * 1024) % 10) ++ " GB" := by
  have hf := floatOfNat_small n h
  simp only [format_size, hf]
  norm_num [dLtN, div1024, pyF1, fmtD, truncD]
  have t10 : Int.toNat 10 = 10 := rfl
  have t20 : Int.toNat 20 = 20 := rfl
  have t30 : Int.toNat 30 = 30 := rfl
  rw [t10, t20, t30]
  norm_num

/-! ### The ASCII bridge for the Unicode-faithful sort key -/

theorem reSplit_ne_nil : ∀ s : PyStr, reSplit s ≠ [] := by
  intro s
  induction s with
  | nil => simp [reSplit]
  | cons c cs ih =>
    simp only [reSplit]
    cases hs : reSplit cs with
    | nil => exact absurd hs ih
    | cons p rest =>
      by_cases hc : c.isDigit
      · cases p with
        | nil =>
          cases rest with
          | nil => simp [hc]
          | cons d rest2 => simp [hc]
        | cons p0 ps => simp [hc]
      · simp [hc]

theorem reSplit_chars : ∀ (s p : PyStr), p ∈ reSplit s → ∀ c ∈ p, c ∈ s := by
  intro s
  induction s with
  | nil =>
    intro p hp c hc
    simp only [reSplit, List.mem_singleton] at hp
    subst hp
    exact absurd hc (List.not_mem_nil c)
  | cons c0 cs ih =>
    intro p hp c hc
    cases hs : reSplit cs with
    | nil => exact absurd hs (reSplit_ne_nil cs)
    | cons q rest =>
      have hq : q ∈ reSplit cs := by
        rw [hs]
        exact List.mem_cons_self _ _
      have hrest : ∀ r ∈ rest, r ∈ reSplit cs := by
        intro r hr
        rw [hs]
        exact List.mem_cons_of_mem _ hr
      simp only [reSplit, hs] at hp
      by_cases hd : c0.isDigit
      · rw [if_pos hd] at hp
        cases q with
        | nil =>
          cases rest with
          | nil =>
            simp only [List.mem_cons, List.not_mem_nil, or_false] at hp
            rcases hp with rfl | rfl | rfl
            · exact absurd hc (List.not_mem_nil c)
            · simp only [List.mem_cons, List.not_mem_nil, or_false] at hc
              subst hc
              exact List.mem_cons_self _ _
            · exact absurd hc (List.not_mem_nil c)
          | cons d rest2 =>
            have hdmem : d ∈ reSplit cs := hrest d (List.mem_cons_self _ _)
            have hrest2 : ∀ r ∈ rest2, r ∈ reSplit cs := by
              intro r hr
              exact hrest r (List.mem_cons_of_mem _ hr)
            simp only [List.mem_cons] at hp
            rcases hp with rfl | rfl | hmem
            · exact absurd hc (List.not_mem_nil c)
            · simp only [List.mem_cons] at hc
              rcases hc with rfl | hcd
              · exact List.mem_cons_self _ _
              · exact List.mem_cons_of_mem _ (ih d hdmem c hcd)
            · exact List.mem_cons_of_mem _ (ih p (hrest2 p hmem) c hc)
        | cons q0 qs =>
          simp only [List.mem_cons] at hp
          rcases hp with rfl | rfl | rfl | hmem
          · exact absurd hc (List.not_mem_nil c)
          · simp only [List.mem_cons, List.not_mem_nil, or_false] at hc
            subst hc
            exact List.mem_cons_self _ _
          · exact List.mem_cons_of_mem _ (ih _ hq c hc)
          · exact List.mem_cons_of_mem _ (ih p (hrest p hmem) c hc)
      · rw [if_neg hd] at hp
        simp only [List.mem_cons] at hp
        rcases hp with rfl | hmem
        · simp only [List.mem_cons] at hc
          rcases hc with rfl | hcq
          · exact List.mem_cons_self _ _
          · exact List.mem_cons_of_mem _ (ih q hq c hcq)
        · exact List.mem_cons_of_mem _ (ih p (hrest p hmem) c hc)

theorem pyIsDigitChar_ascii (c : Char) (h : c.toNat ≤ 127) :
    pyIsDigitChar c = c.isDigit := by
  have h1 : decide (c.toNat = 0xB2) = false := by simp; omega
  have h2 : decide (c.toNat = 0xB3) = false := by simp; omega
  have h3 : decide (c.toNat = 0xB9) = false := by simp; omega
  have h4 : decide (0x660 ≤ c.toNat) = false := by simp; omega
  simp [pyIsDigitChar, h1, h2, h3, h4]

theorem pyIntOfRun_digits : ∀ (p : PyStr) (acc : Nat), (∀ c ∈ p, c.isDigit = true) →
    p.foldl (fun acc c =>
      match acc, pyDecimalVal c with
      | some n, some d => some (n * 10 + d)
      | _, _ => none) (some acc) =
    some (p.foldl (fun n c => n * 10 + (c.toNat - 48)) acc) := by
  intro p
  induction p with
  | nil => intro acc _; rfl
  | cons c cs ih =>
    intro acc h
    have hc : c.isDigit = true := h c (List.mem_cons_self _ _)
    have hd : pyDecimalVal c = some (c.toNat - 48) := by simp [pyDecimalVal, hc]
    simp only [List.foldl_cons, hd]
    exact ih _ (fun x hx => h x (List.mem_cons_of_mem _ hx))

theorem all_congr_chars {p : PyStr} {f g : Char → Bool}
    (h : ∀ c ∈ p, f c = g c) : p.all f = p.all g := by
  induction p with
  | nil => rfl
  | cons c cs ih =>
    simp only [List.all_cons]
    rw [h c (List.mem_cons_self _ _), ih (fun x hx => h x (List.mem_cons_of_mem _ hx))]

theorem pyConvertTok_ascii (p : PyStr) (h : ∀ c ∈ p, c.toNat ≤ 127) :
    pyConvertTok p = .ok (convertTok p) := by
  have hall : p.all pyIsDigitChar = p.all (·.isDigit) :=
    all_congr_chars (fun c hc => pyIsDigitChar_ascii c (h c hc))
  by_cases hcond : (!p.isEmpty && p.all (·.isDigit)) = true
  · have hint : pyIntOfRun p = some (digitsToNat p) := by
      have hdig : ∀ c ∈ p, c.isDigit = true := by
        have := (Bool.and_eq_true _ _ |>.mp hcond).2
        simpa [List.all_eq_true] using this
      exact pyIntOfRun_digits p 0 hdig
    simp [pyConvertTok, convertTok, hall, hcond, hint]
  · simp [pyConvertTok, convertTok, hall, hcond]

theorem mapM_pyConvertTok_ok : ∀ l : List PyStr,
    (∀ p ∈ l, pyConvertTok p = .ok (convertTok p)) →
    l.mapM pyConvertTok = .ok (l.map convertTok) := by
  intro l
  induction l with
  | nil => intro _; rfl
  | cons p ps ih =>
    intro h
    rw [List.mapM_cons, h p (List.mem_cons_self _ _),
      ih (fun q hq => h q (List.mem_cons_of_mem _ hq))]
    rfl

theorem pyNaturalSortKey_ascii (s : PyStr) (h : ∀ c ∈ s, c.toNat ≤ 127) :
    pyNaturalSortKey s = .ok (natural_sort_key s) := by
  rw [pyNaturalSortKey, natural_sort_key]
  refine mapM_pyConvertTok_ok (reSplit s) ?_
  intro p hp
  exact pyConvertTok_ascii p (fun c hc => h c (reSplit_chars s p hp c hc))

/-! ### Token kinds never mix in a key comparison -/

/-- Alternating token kinds, starting from the kind `k` (`false` = text). -/
def toksAltF : Bool → List Tok → Bool
  | _, [] => true
  | k, t :: rest => (t.isNum == k) && toksAltF (!k) rest

theorem altRuns_toksAltF : ∀ l : List PyStr, altRuns l = true →
    toksAltF false (l.map convertTok) = true
  | [], ha => by simp [altRuns] at ha
  | [t], ha => by
    have ht : isTextRun t = true := by simpa [altRuns] using ha
    simp [toksAltF, convertTok_text t ht]
  | t :: d :: rest, ha => by
    simp only [altRuns, Bool.and_eq_true] at ha
    have ht := convertTok_text t ha.1.1
    have hd := convertTok_digit d ha.1.2
    have hr := altRuns_toksAltF rest ha.2
    simp [toksAltF, ht, hd, hr]

theorem toksAltF_key (s : PyStr) : toksAltF false (natural_sort_key s) = true :=
  altRuns_toksAltF (reSplit s) (reSplit_alt s)

theorem pyKeyCmp_ok_of_alt : ∀ (xs : List Tok) (k : Bool) (ys : List Tok),
    toksAltF k xs = true → toksAltF k ys = true →
    ∃ o, pyKeyCmp xs ys = Except.ok o := by
  intro xs
  induction xs with
  | nil =>
    intro k ys _ _
    cases ys with
    | nil => exact ⟨.eq, rfl⟩
    | cons y ys => exact ⟨.lt, rfl⟩
  | cons x xs ih =>
    intro k ys hx hy
    cases ys with
    | nil => exact ⟨.gt, rfl⟩
    | cons y ys =>
      simp only [toksAltF, Bool.and_eq_true, beq_iff_eq] at hx hy
      have hxk : x.isNum = k := hx.1
      have hyk : y.isNum = k := hy.1
      have hsame : ∃ o2, pyTokCmp x y = Except.ok o2 := by
        cases x with
        | num a =>
          cases y with
          | num b => exact ⟨_, rfl⟩
          | txt b =>
            simp only [Tok.isNum] at hxk hyk
            rw [← hyk] at hxk
            simp at hxk
        | txt a =>
          cases y with
          | num b =>
            simp only [Tok.isNum] at hxk hyk
            rw [← hyk] at hxk
            simp at hxk
          | txt b => exact ⟨_, rfl⟩
      obtain ⟨o2, ho2⟩ := hsame
      cases o2 with
      | eq =>
        have hstep : pyKeyCmp (x :: xs) (y :: ys) = pyKeyCmp xs ys := by
          simp [pyKeyCmp, ho2]
        rw [hstep]
        exact ih (!k) ys hx.2 hy.2
      | lt => exact ⟨.lt, by simp [pyKeyCmp, ho2]⟩
      | gt => exact ⟨.gt, by simp [pyKeyCmp, ho2]⟩

theorem pyKeyCmp_keys_ok (s t : PyStr) :
    ∃ o, pyKeyCmp (natural_sort_key s) (natural_sort_key t) = Except.ok o :=
  pyKeyCmp_ok_of_alt (natural_sort_key s) false (natural_sort_key t)
    (toksAltF_key s) (toksAltF_key t)

/-! ### Demo records used by concrete claim instances -/

def tAW : TensorInfo := ⟨strOf "a.w", strOf "F32", [2, 2], 16, 4⟩
def tAB : TensorInfo := ⟨strOf "a.b", strOf "F32", [2, 2], 16, 4⟩
def tC : TensorInfo := ⟨strOf "c", strOf "F32", [2, 2], 16, 4⟩
def tAZ : TensorInfo := ⟨strOf "a.z", strOf "F32", [2, 2], 16, 4⟩
def tACD : TensorInfo := ⟨strOf "a.c.d", strOf "F32", [2, 2], 16, 4⟩
def tEmptyName : TensorInfo := ⟨strOf "", strOf "F32", [2, 2], 16, 4⟩
def tTrailDot : TensorInfo := ⟨strOf "a.", strOf "F32", [2, 2], 16, 4⟩
def tW1 : TensorInfo := ⟨strOf "w", strOf "F32", [2, 2], 16, 4⟩
def tW2 : TensorInfo := ⟨strOf "w", strOf "F16", [8], 16, 8⟩
def mX : MetadataInfo := ⟨strOf "format", strOf "pt", strOf "string"⟩
def fA : FileRecords := ⟨[tW1], [mX]⟩
def fB : FileRecords := ⟨[tW2], [mX]⟩

theorem leafInfosN_of_group {n : TreeNode} {cs : List TreeNode}
    (hch : n.children = some cs) (hti : n.tensor_info = none) :
    leafInfosN n = leafInfosL cs := by
  rw [leafInfosN, allNodesN_eq, hch]
  simp [allNodesO, List.filterMap_cons, hti, leafInfosL]

theorem NodeOK_of_group {n : TreeNode} {cs : List TreeNode}
    (hok : NodeOK n) (hch : n.children = some cs) :
    n.tensor_info = none ∧ n.metadata_info = none ∧ cs ≠ [] ∧
    sortedB nodeLe cs = true ∧
    n.tensor_count = (leafInfosL cs).length ∧
    n.total_size = sumBytes (leafInfosL cs) := by
  unfold NodeOK at hok
  rw [hch] at hok
  exact hok

/-! ### Claim theorems -/

/-- C1: in every tree returned by `build_tree_mixed`, every Group node's
`tensor_count` equals the number of tensor-leaf nodes in its full subtree and
its `total_size` equals the sum of those leaves' `size_bytes`, recursively up
to the root. -/
theorem c1_group_aggregates (ts : List TensorInfo) (ms : List MetadataInfo)
    (n : TreeNode) (hn : n ∈ allNodesL (build_tree_mixed ts ms))
    (hg : n.is_group) :
    n.tensor_count = (leafInfosN n).length ∧
    n.total_size = sumBytes (leafInfosN n) := by
  have hok := (build_tree_mixed_ok ts ms).2 n hn
  cases hch : n.children with
  | none =>
    rw [TreeNode.is_group, hch] at hg
    simp at hg
  | some cs =>
    obtain ⟨hti, _, _, _, hcount, hsize⟩ := NodeOK_of_group hok hch
    rw [leafInfosN_of_group hch hti]
    exact ⟨hcount, hsize⟩

/-- C1 witness: the group `"a"` built from the single tensor `"a.w"` counts
one leaf of 16 bytes. -/
theorem c1_group_aggregates_witness :
    (mkGroup (strOf "a") [mkLeaf tAW] true [tAW]).tensor_count =
      (leafInfosN (mkGroup (strOf "a") [mkLeaf tAW] true [tAW])).length ∧
    (mkGroup (strOf "a") [mkLeaf tAW] true [tAW]).total_size =
      sumBytes (leafInfosN (mkGroup (strOf "a") [mkLeaf tAW] true [tAW])) :=
  c1_group_aggregates [tAW] [] _
    (mem_allNodesL_of_mem (List.Mem.head _)) rfl

/-- C2 counterexample: on tensors `"a.z"` and `"a.c.d"` the children of
group `"a"` come out as `[leaf "a.z", group "c"]`, ordered by the node's
`name` field (the full dotted name for leaves); by natural-sort of the
displayed name (last segment `"z"` versus `"c"`) that list is NOT sorted, so
children are not sorted by display name as the claim states. -/
theorem c2_display_counterexample :
    build_tree_mixed [tAZ, tACD] [] =
      [mkGroup (strOf "a")
        [mkLeaf tAZ, mkGroup (strOf "c") [mkLeaf tACD] false [tACD]]
        true [tAZ, tACD]] ∧
    sortedB displayLe
      [mkLeaf tAZ, mkGroup (strOf "c") [mkLeaf tACD] false [tACD]] = false :=
  ⟨rfl, rfl⟩

/-- C2 amended: in every tree returned by `build_tree_mixed`, the children of
any node appear sorted by natural-sort of the node's `name` field — the full
dotted tensor name for tensor leaves, the bare segment for sub-groups — never
insertion order. -/
theorem c2_children_sorted_by_name (ts : List TensorInfo) (ms : List MetadataInfo)
    (n : TreeNode) (hn : n ∈ allNodesL (build_tree_mixed ts ms))
    (cs : List TreeNode) (hch : n.children = some cs) :
    sortedB nodeLe cs = true := by
  have hok := (build_tree_mixed_ok ts ms).2 n hn
  exact (NodeOK_of_group hok hch).2.2.2.1

/-- C2 amended witness: the children of group `"a"` over tensors `"a.w"`,
`"a.b"` are sorted by name. -/
theorem c2_children_sorted_by_name_witness :
    sortedB nodeLe [mkLeaf tAB, mkLeaf tAW] = true :=
  c2_children_sorted_by_name [tAW, tAB] [] _
    (mem_allNodesL_of_mem (List.Mem.head _)) _ rfl

/-- C3: `build_tree` partitions tensors by their first dot-delimited segment;
a tensor whose name contains no dot becomes a root-level tensor leaf not
wrapped in any group, and the inputs `"a.w"`, `"a.b"`, `"c"` produce exactly
one group `"a"` with two tensor-leaf children plus one root-level leaf `"c"`. -/
theorem c3_first_segment_partition :
    (∀ (ts : List TensorInfo) (t : TensorInfo), t ∈ ts →
      (splitDot t.name).length = 1 → mkLeaf t ∈ build_tree ts) ∧
    build_tree [tAW, tAB, tC] =
      [mkGroup (strOf "a") [mkLeaf tAB, mkLeaf tAW] true [tAW, tAB], mkLeaf tC] := by
  constructor
  · intro ts t hts hdotless
    have hfv : t ∈ flattenVals (rootPartition ts) :=
      (rootPartition_perm ts).mem_iff.mpr hts
    obtain ⟨b, hbmap, htb⟩ := List.mem_flatten.mp hfv
    obtain ⟨⟨k, b2⟩, hkb, hsnd⟩ := List.mem_map.mp hbmap
    simp only at hsnd
    subst hsnd
    have hkroot : k = rootKey := by
      by_contra hk
      have := (rootPartition_pred ts k b2 hkb t htb hk).1
      omega
    subst hkroot
    have hemit : mkLeaf t ∈ emitEntry ts (rootKey, b2) := by
      simp only [emitEntry, if_pos rfl]
      exact List.mem_map.mpr ⟨t, htb, rfl⟩
    have hflat : mkLeaf t ∈ (rootPartition ts).flatMap (emitEntry ts) :=
      List.mem_flatMap.mpr ⟨(rootKey, b2), hkb, hemit⟩
    exact (sortNodes_perm _).mem_iff.mpr hflat
  · rfl

/-- C3 witness: the dotless tensor `"c"` is a root-level leaf of its tree. -/
theorem c3_first_segment_partition_witness :
    mkLeaf tC ∈ build_tree [tAW, tAB, tC] :=
  c3_first_segment_partition.1 [tAW, tAB, tC] tC (by decide) (by decide)

/-- C4: the loader merge keeps, per tensor name, exactly the
first-encountered record (later duplicates silently dropped), does not
deduplicate metadata, and computes `total_parameters` over the deduplicated
tensors, so a name repeated across files is counted once; concretely two
files sharing tensor name `"w"` keep the first file's record untouched. -/
theorem c4_loader_merge :
    (∀ files : List FileRecords,
      (∀ u ∈ (loadMerge files).tensors,
        ((files.map FileRecords.tensors).flatten).find?
          (fun v => v.name == u.name) = some u) ∧
      ((loadMerge files).tensors.map TensorInfo.name).Nodup ∧
      (∀ t ∈ (files.map FileRecords.tensors).flatten,
        ∃ u ∈ (loadMerge files).tensors, u.name = t.name) ∧
      (loadMerge files).metadata = (files.map FileRecords.metadata).flatten ∧
      (loadMerge files).total_parameters =
        ((loadMerge files).tensors.map TensorInfo.num_elements).sum) ∧
    loadMerge [fA, fB] =
      { tensors := [tW1], metadata := [mX, mX], total_parameters := 4 } := by
  constructor
  · intro files
    refine ⟨?_, ?_, ?_, rfl, rfl⟩
    · intro u hu
      exact dedupTensors_first_wins _ u hu
    · exact dedupTensors_nodup _
    · intro t ht
      exact dedupTensors_coverage _ t ht
  · rfl

/-- C4 witness: with the two concrete files, the kept record for name `"w"`
is the first file's. -/
theorem c4_loader_merge_witness :
    (([fA, fB].map FileRecords.tensors).flatten).find?
      (fun v => v.name == tW1.name) = some tW1 :=
  (c4_loader_merge.1 [fA, fB]).1 tW1 (by decide)

/-- C5: with no decoder-reported byte size, `size_bytes` is
`num_elements * bytes_per_element` where the width is 2 for dtype tags
containing `"16"`, else 1 for `"8"`, else 8 for `"64"`, else 4; a tensor of
100 elements with dtype `"F16"` gets `size_bytes = 200`. -/
theorem c5_size_heuristic :
    (∀ (nm dt : PyStr) (shape : List Nat),
      (containsSub dt (strOf "16") = true →
        (decodeTensor nm dt shape).size_bytes = numElements shape * 2) ∧
      (containsSub dt (strOf "16") = false → containsSub dt (strOf "8") = true →
        (decodeTensor nm dt shape).size_bytes = numElements shape * 1) ∧
      (containsSub dt (strOf "16") = false → containsSub dt (strOf "8") = false →
        containsSub dt (strOf "64") = true →
        (decodeTensor nm dt shape).size_bytes = numElements shape * 8) ∧
      (containsSub dt (strOf "16") = false → containsSub dt (strOf "8") = false →
        containsSub dt (strOf "64") = false →
        (decodeTensor nm dt shape).size_bytes = numElements shape * 4)) ∧
    (decodeTensor (strOf "t") (strOf "F16") [100]).num_elements = 100 ∧
    (decodeTensor (strOf "t") (strOf "F16") [100]).size_bytes = 200 := by
  refine ⟨?_, by decide, by decide⟩
  intro nm dt shape
  refine ⟨?_, ?_, ?_, ?_⟩
  · intro h16
    simp [decodeTensor, bytesPerElem, h16]
  · intro h16 h8
    simp [decodeTensor, bytesPerElem, h16, h8]
  · intro h16 h8 h64
    simp [decodeTensor, bytesPerElem, h16, h8, h64]
  · intro h16 h8 h64
    simp [decodeTensor, bytesPerElem, h16, h8, h64]

/-- C5 witness: dtype `"BF16"` matches the `"16"` rule on a 3-element shape. -/
theorem c5_size_heuristic_witness :
    (decodeTensor (strOf "u") (strOf "BF16") [3]).size_bytes = numElements [3] * 2 :=
  (c5_size_heuristic.1 (strOf "u") (strOf "BF16") [3]).1 (by decide)

/-- C6: `build_tree` terminates and produces exactly one leaf per input
tensor for every input list — the fueled `build_subtree` always returns
`some` on the buckets `build_tree` hands it — and an empty-string name or a
trailing-separator name still yields a valid leaf or single-child group. -/
theorem c6_totality :
    (∀ ts : List TensorInfo, (leafInfosL (build_tree ts)).Perm ts) ∧
    (∀ (ts : List TensorInfo) (k : PyStr) (b : List TensorInfo),
      (k, b) ∈ rootPartition ts → k ≠ rootKey →
      ∃ l, buildSubtreeF (treeFuel ts) (sortTensors b) k = some l) ∧
    build_tree [tEmptyName] = [mkLeaf tEmptyName] ∧
    build_tree [tTrailDot] =
      [mkGroup (strOf "a") [mkLeaf tTrailDot] true [tTrailDot]] := by
  refine ⟨?_, ?_, rfl, rfl⟩
  · intro ts
    exact (build_tree_ok ts).1
  · intro ts k b hmem hk
    obtain ⟨l, hl, _⟩ := bucket_subtree_some ts k b hmem hk
    exact ⟨l, hl⟩

/-- C6 witness: fuel suffices for the bucket `"a"` of the single tensor
`"a.w"`, and the whole tree keeps exactly that tensor as a leaf. -/
theorem c6_totality_witness :
    (leafInfosL (build_tree [tAW])).Perm [tAW] ∧
    ∃ l, buildSubtreeF (treeFuel [tAW]) (sortTensors [tAW]) (strOf "a") = some l :=
  ⟨c6_totality.1 [tAW],
   c6_totality.2.1 [tAW] (strOf "a") [tAW] (by decide) (by decide)⟩

/-- C7 counterexample: under CPython Unicode semantics, modelled by
`pyNaturalSortKey`/`pyKeyCmp`, `natural_sort_key` is not total and key
comparison is not always well-defined: on `"²"` (SUPERSCRIPT TWO,
`str.isdigit` true but `int()` rejects it) the key function raises
`ValueError`, and `"٣"` (ARABIC-INDIC DIGIT THREE, not matched by the
ASCII-only `re.split('([0-9]+)')` pattern) yields a numeric token at a
text position, so comparing its key against the key of `"a"` raises
`TypeError` (int vs str). -/
theorem c7_unicode_counterexample :
    pyNaturalSortKey (strOf "²") = Except.error PyError.valueError ∧
    pyNaturalSortKey (strOf "٣") = Except.ok [Tok.num 3] ∧
    pyNaturalSortKey (strOf "a") = Except.ok [Tok.txt (strOf "a")] ∧
    pyKeyCmp [Tok.num 3] [Tok.txt (strOf "a")] = Except.error PyError.typeError :=
  ⟨rfl, rfl, rfl, rfl⟩

/-- C7 (amended): restricted to ASCII strings `natural_sort_key` does induce
a total deterministic ordering with no failure modes: on ASCII input the
fallible Unicode model `pyNaturalSortKey` agrees with the ASCII key and never
fails; token kinds align by position across any two keys, so the fallible
comparison `pyKeyCmp` never raises on two produced keys (whatever the input
strings); the induced `keyLe` is total; and sorting
`["layer10","layer2","layer1"]` yields `["layer1","layer2","layer10"]`. -/
theorem c7_ascii_natural_sort :
    (∀ s : PyStr, (∀ c ∈ s, c.toNat ≤ 127) →
      pyNaturalSortKey s = Except.ok (natural_sort_key s)) ∧
    (∀ s t : PyStr,
      ∃ o, pyKeyCmp (natural_sort_key s) (natural_sort_key t) = Except.ok o) ∧
    (∀ (s t : PyStr) (i : Nat) (hi : i < (natural_sort_key s).length)
        (hj : i < (natural_sort_key t).length),
      ((natural_sort_key s).get ⟨i, hi⟩).isNum =
        ((natural_sort_key t).get ⟨i, hj⟩).isNum) ∧
    (∀ a b : PyStr,
      (keyLe (natural_sort_key a) (natural_sort_key b) ||
        keyLe (natural_sort_key b) (natural_sort_key a)) = true) ∧
    sortLe (fun a b => keyLe (natural_sort_key a) (natural_sort_key b))
      [strOf "layer10", strOf "layer2", strOf "layer1"] =
      [strOf "layer1", strOf "layer2", strOf "layer10"] := by
  refine ⟨pyNaturalSortKey_ascii, pyKeyCmp_keys_ok, ?_, ?_, rfl⟩
  · intro s t i hi hj
    rw [natural_sort_key_kind s i hi, natural_sort_key_kind t i hj]
  · intro a b
    exact keyLe_total _ _

/-- C7 witness: on the ASCII string `"layer2"` the fallible Unicode model
returns exactly the ASCII key. -/
theorem c7_ascii_natural_sort_witness :
    pyNaturalSortKey (strOf "layer2") = Except.ok (natural_sort_key (strOf "layer2")) :=
  c7_ascii_natural_sort.1 (strOf "layer2") (by decide)

/-- C8: the formatting helpers are total on naturals and, under the exact
binary64 model (`floatOfNat`/`divD`/`fmtD` with round-half-even, matching
CPython's `float`, `/` and `%.1f`), behave as the code does: `format_size`
keeps the `B` unit as a plain integer below 1024 and in each of the KB, MB
and GB ranges (below `2^53`, where `float(size_bytes)` is exact) prints
exactly the half-even rounding of `10*n/1024^k` as `i.d unit`;
`format_parameters` prints the raw integer below 1000 and in the K, M and
B ranges prints the one-decimal rendering of the correctly-rounded binary64
quotient `n / 10^(3k)`; the concrete examples include CPython's tie
behaviour `format_parameters 1050000 = "1.1M"` (not `"1.0M"`),
`format_parameters 1150000 = "1.1M"` (not `"1.2M"`), and a value above
`2^53` where `float()` already rounds the input. -/
theorem c8_formatters :
    format_size 1536 = "1.5 KB" ∧
    format_size 512 = "512 B" ∧
    format_parameters 1500000 = "1.5M" ∧
    format_parameters 1050000 = "1.1M" ∧
    format_parameters 1150000 = "1.1M" ∧
    format_size 1280 = "1.2 KB" ∧
    format_size 123456789012345678 = "114978094.6 GB" ∧
    (∀ n : Nat, n < 2 ^ 53 → floatOfNat n = (n, 0)) ∧
    (∀ n : Nat, n < 1024 → format_size n = toString n ++ " B") ∧
    (∀ n : Nat, 1024 ≤ n → n < 1024 * 1024 →
      format_size n = toString (rndHalfEven (10 * n) 1024 / 10) ++ "." ++
        toString (rndHalfEven (10 * n) 1024 % 10) ++ " KB" ∧
      rndHalfEven (10 * n) 1024 % 10 < 10) ∧
    (∀ n : Nat, 1024 * 1024 ≤ n → n < 1024 * 1024 * 1024 →
      format_size n = toString (rndHalfEven (10 * n) (1024 * 1024) / 10) ++ "." ++
        toString (rndHalfEven (10 * n) (1024 * 1024) % 10) ++ " MB" ∧
      rndHalfEven (10 * n) (1024 * 1024) % 10 < 10) ∧
    (∀ n : Nat, 1024 * 1024 * 1024 ≤ n → n < 2 ^ 53 →
      format_size n = toString (rndHalfEven (10 * n) (1024 * 1024 * 1024) / 10) ++ "." ++
        toString (rndHalfEven (10 * n) (1024 * 1024 * 1024) % 10) ++ " GB" ∧
      rndHalfEven (10 * n) (1024 * 1024 * 1024) % 10 < 10) ∧
    (∀ n : Nat, n < 1000 → format_parameters n = toString n) ∧
    (∀ n : Nat, 1000 ≤ n → n < 1000000 →
      format_parameters n = toString (oneDecScaled n 1000 / 10) ++ "." ++
        toString (oneDecScaled n 1000 % 10) ++ "K" ∧
      oneDecScaled n 1000 % 10 < 10) ∧
    (∀ n : Nat, 1000000 ≤ n → n < 1000000000 →
      format_parameters n = toString (oneDecScaled n 1000000 / 10) ++ "." ++
        toString (oneDecScaled n 1000000 % 10) ++ "M" ∧
      oneDecScaled n 1000000 % 10 < 10) ∧
    (∀ n : Nat, 1000000000 ≤ n →
      format_parameters n = toString (oneDecScaled n 1000000000 / 10) ++ "." ++
        toString (oneDecScaled n 1000000000 % 10) ++ "B" ∧
      oneDecScaled n 1000000000 % 10 < 10) := by
  refine ⟨by decide, by decide, by decide, by decide, by decide, by decide, by decide,
    floatOfNat_small, ?_, ?_, ?_, ?_, ?_, ?_, ?_, ?_⟩
  · intro n h
    rw [format_size_eq n (by omega), if_pos h]
  · intro n h1 h2
    refine ⟨?_, Nat.mod_lt _ (by omega)⟩
    rw [format_size_eq n (by omega), if_neg (by omega), if_pos (by omega)]
  · intro n h1 h2
    refine ⟨?_, Nat.mod_lt _ (by omega)⟩
    rw [format_size_eq n (by omega), if_neg (by omega), if_neg (by omega),
      if_pos (by omega)]
  · intro n h1 h2
    refine ⟨?_, Nat.mod_lt _ (by omega)⟩
    rw [format_size_eq n h2, if_neg (by omega), if_neg (by omega), if_neg (by omega)]
  · intro n h
    simp [format_parameters, h]
  · intro n h1 h2
    refine ⟨?_, Nat.mod_lt _ (by omega)⟩
    simp only [format_parameters, oneDecScaled]
    rw [if_neg (by omega), if_pos (by omega)]
    rfl
  · intro n h1 h2
    refine ⟨?_, Nat.mod_lt _ (by omega)⟩
    simp only [format_parameters, oneDecScaled]
    rw [if_neg (by omega), if_neg (by omega), if_pos (by omega)]
    rfl
  · intro n h1
    refine ⟨?_, Nat.mod_lt _ (by omega)⟩
    simp only [format_parameters, oneDecScaled]
    rw [if_neg (by omega), if_neg (by omega), if_neg (by omega)]
    rfl

/-- C8 witness: 2048 bytes formats as the one-decimal half-even rounding of
`20480/1024` with the `KB` unit. -/
theorem c8_formatters_witness :
    format_size 2048 = toString (rndHalfEven (10 * 2048) 1024 / 10) ++ "." ++
      toString (rndHalfEven (10 * 2048) 1024 % 10) ++ " KB" ∧
    rndHalfEven (10 * 2048) 1024 % 10 < 10 :=
  c8_formatters.2.2.2.2.2.2.2.2.2.1 2048 (by omega) (by omega)

/-- C9: every node of a tree returned by `build_tree_mixed` is exactly one of
group, tensor leaf, metadata leaf. -/
theorem c9_exactly_one_variant (ts : List TensorInfo) (ms : List MetadataInfo)
    (n : TreeNode) (hn : n ∈ allNodesL (build_tree_mixed ts ms)) :
    (n.is_group ∧ ¬n.is_tensor ∧ ¬n.is_metadata) ∨
    (¬n.is_group ∧ n.is_tensor ∧ ¬n.is_metadata) ∨
    (¬n.is_group ∧ ¬n.is_tensor ∧ n.is_metadata) := by
  have hok := (build_tree_mixed_ok ts ms).2 n hn
  cases hch : n.children with
  | some cs =>
    obtain ⟨hti, hmi, _⟩ := NodeOK_of_group hok hch
    refine .inl ⟨?_, ?_, ?_⟩
    · rw [TreeNode.is_group, hch]
      rfl
    · rw [TreeNode.is_tensor, hti]
      simp
    · rw [TreeNode.is_metadata, hmi]
      simp
  | none =>
    unfold NodeOK at hok
    rw [hch] at hok
    rcases hok with ⟨hti, hmi⟩ | ⟨hmi, hti⟩
    · refine .inr (.inl ⟨?_, hti, ?_⟩)
      · rw [TreeNode.is_group, hch]
        simp
      · rw [TreeNode.is_metadata, hmi]
        simp
    · refine .inr (.inr ⟨?_, ?_, hmi⟩)
      · rw [TreeNode.is_group, hch]
        simp
      · rw [TreeNode.is_tensor, hti]
        simp

/-- C9 witness: the root-level leaf for `"c"` is exactly one variant. -/
theorem c9_exactly_one_variant_witness :
    ((mkLeaf tC).is_group ∧ ¬(mkLeaf tC).is_tensor ∧ ¬(mkLeaf tC).is_metadata) ∨
    (¬(mkLeaf tC).is_group ∧ (mkLeaf tC).is_tensor ∧ ¬(mkLeaf tC).is_metadata) ∨
    (¬(mkLeaf tC).is_group ∧ ¬(mkLeaf tC).is_tensor ∧ (mkLeaf tC).is_metadata) :=
  c9_exactly_one_variant [tC] [] (mkLeaf tC)
    (mem_allNodesL_of_mem (List.Mem.head _))

/-- C10: every Group node in a tree returned by `build_tree_mixed` has a
nonempty children list. -/
theorem c10_groups_nonempty (ts : List TensorInfo) (ms : List MetadataInfo)
    (n : TreeNode) (hn : n ∈ allNodesL (build_tree_mixed ts ms))
    (cs : List TreeNode) (hch : n.children = some cs) : cs ≠ [] := by
  have hok := (build_tree_mixed_ok ts ms).2 n hn
  exact (NodeOK_of_group hok hch).2.2.1

/-- C10 witness: the group `"a"` over the single tensor `"a.w"` has a
nonempty child list. -/
theorem c10_groups_nonempty_witness : ([mkLeaf tAW] : List TreeNode) ≠ [] :=
  c10_groups_nonempty [tAW] [] (mkGroup (strOf "a") [mkLeaf tAW] true [tAW])
    (mem_allNodesL_of_mem (List.Mem.head _)) [mkLeaf tAW] rfl
